import Mathlib

/-!
# Verification of the bello reference-manager import/merge core

Shallow embedding of the parsing, identity-resolution and merge code of the
`bello` reference manager (`src/Importers.h`, `src/BrowserConnector.h`,
`src/Database.h`, `src/LeftSection.h`) together with proofs about the
claims of the specification.

Modelling conventions:
* Qt/std strings are Lean `String`s; character-level work is done on
  `String.data : List Char`.  Whitespace is modelled as the ASCII set
  space/tab/newline/carriage-return (`QChar::isSpace` and the regular
  expression class `\s` agree with this on the inputs of interest).
* The file system is a value `FS` listing the paths that exist; copying a
  file appends its destination path.  `std::filesystem::copy_file` failures
  (swallowed by the source with `catch (...)`) are not modelled: a copy
  always succeeds.
* The DuckDB store is a value `Store`; SQL `INSERT` of a duplicate primary
  key is modelled as a rejected write that leaves the table unchanged
  (matching `Database::addItem`, which logs and swallows the error).
* `QJsonObject` blobs (the `extra` field) are modelled as association lists
  `List (String × String)`; parse/serialize round-trips of the JSON library
  are taken as the identity.
* Index-based scanning loops of the C++ are given explicit fuel; the fuel
  passed at every call site exceeds the number of loop iterations the C++
  can perform (every iteration advances the cursor), so the out-of-fuel
  branch is never taken.
-/

namespace Bello

/-- Whitespace as used by `QString::trimmed` / `\s+` on the inputs of
interest: space, tab, newline, carriage return. -/
def isWs (c : Char) : Bool := c = ' ' || c = '\t' || c = '\n' || c = '\r'

/-- The character `{` (written via its code point to keep it out of code
positions). -/
def lbrace : Char := Char.ofNat 123

/-- The character `}`. -/
def rbrace : Char := Char.ofNat 125

/-- `QString::trimmed` on a character list: drop leading and trailing
whitespace. -/
def trimL (l : List Char) : List Char :=
  ((l.dropWhile isWs).reverse.dropWhile isWs).reverse

/-- `trimL` packaged on strings. -/
def trimS (s : String) : String := String.mk (trimL s.data)

/-- Worker for whitespace collapsing (`s.replace(QRegularExpression("\\s+"), " ")`):
`prevWs` records whether the previous character was whitespace, so each
maximal whitespace run is emitted as a single space. -/
def collapseGo : Bool → List Char → List Char
  | _, [] => []
  | prevWs, c :: rest =>
    if isWs c then
      if prevWs then collapseGo true rest
      else ' ' :: collapseGo true rest
    else c :: collapseGo false rest

/-- Collapse every whitespace run to a single space. -/
def collapseWs (l : List Char) : List Char := collapseGo false l

/-- `QString::replace(pat, repl)` for a two-character pattern `a b` replaced by
the single character `t`: scan left to right, replace non-overlapping
occurrences, resume after the replacement. -/
def replacePair (a b t : Char) : List Char → List Char
  | [] => []
  | [c] => [c]
  | c :: d :: rest =>
    if c = a ∧ d = b then t :: replacePair a b t rest
    else c :: replacePair a b t (d :: rest)

/-- The `while (s.size() >= 2 && s.startsWith(o) && s.endsWith(c)) s = s.mid(1, size-2);`
loops of `cleanValue`, with fuel (each strip removes two characters, so the
initial length is enough fuel). -/
def stripOuterLoop (o c : Char) : Nat → List Char → List Char
  | 0, l => l
  | fuel + 1, l =>
    if 2 ≤ l.length ∧ l.head? = some o ∧ l.getLast? = some c then
      stripOuterLoop o c fuel ((l.drop 1).dropLast)
    else l

/-- Replace `{` and `}` by a space (the
`s.replace('{', ' '); s.replace('}', ' ');` steps of `cleanValue`). -/
def braceToSpace (c : Char) : Char :=
  if c = lbrace ∨ c = rbrace then ' ' else c

/-- The last three stages of `cleanValue` (`src/Importers.h` lines 49–53):
replace the remaining braces by spaces, collapse whitespace runs, trim. -/
def cleanFinish (w : List Char) : List Char :=
  trimL (collapseWs (w.map braceToSpace))

/-- The body of the BibTeX value cleaner `cleanValue` of
`src/Importers.h` (lines 31–56), stage by stage in source order:
trim; iteratively strip outer `{...}`; iteratively strip outer `"..."`;
unescape `\{ \} \% \& \_ \$`; trim; chop one trailing comma; replace the
remaining braces by spaces; collapse whitespace runs; trim. -/
def cleanCore (l0 : List Char) : List Char :=
  let l1 := trimL l0
  let l2 := stripOuterLoop lbrace rbrace l1.length l1
  let l3 := stripOuterLoop '"' '"' l2.length l2
  let l4 := replacePair '\\' lbrace lbrace l3
  let l5 := replacePair '\\' rbrace rbrace l4
  let l6 := replacePair '\\' '%' '%' l5
  let l7 := replacePair '\\' '&' '&' l6
  let l8 := replacePair '\\' '_' '_' l7
  let l9 := replacePair '\\' '$' '$' l8
  let l10 := trimL l9
  let l11 := if l10.getLast? = some ',' then l10.dropLast else l10
  cleanFinish l11

/-- `cleanValue` of `src/Importers.h` on strings. -/
def cleanValue (s : String) : String := String.mk (cleanCore s.data)

/-- Character-list test: is `p` a prefix of `l`? -/
def isPrefixOfL : List Char → List Char → Bool
  | [], _ => true
  | _ :: _, [] => false
  | p :: ps, c :: cs => p = c && isPrefixOfL ps cs

/-- Split at the first occurrence of the pattern `pat`: returns
`(before, after)` if `pat` occurs, `none` otherwise. -/
def splitFirstSub (pat : List Char) : List Char → Option (List Char × List Char)
  | [] => if pat.isEmpty then some ([], []) else none
  | c :: rest =>
    if isPrefixOfL pat (c :: rest) then some ([], (c :: rest).drop pat.length)
    else
      match splitFirstSub pat rest with
      | some (b, a) => some (c :: b, a)
      | none => none

/-- `QString::contains(pat)`. -/
def containsStr (s pat : String) : Bool := (splitFirstSub pat.data s.data).isSome

/-- `QString::section(pat, 1)`: everything after the first occurrence of
`pat` (the sections from index 1 on, re-joined by the separator, which is
exactly the suffix after the first occurrence); empty if `pat` does not
occur. -/
def sectionAfterFirst (pat s : String) : String :=
  match splitFirstSub pat.data s.data with
  | some (_, a) => String.mk a
  | none => ""

/-- `QString::section(pat, 0, 0)`: everything before the first occurrence of
`pat`; the whole string if `pat` does not occur. -/
def sectionBeforeFirst (pat s : String) : String :=
  match splitFirstSub pat.data s.data with
  | some (b, _) => String.mk b
  | none => s

/-- The `line.section(openTag, 1).section(closeTag, 0, 0).trimmed()` idiom of
the XML importers. -/
def textBetween (openTag closeTag line : String) : String :=
  trimS (sectionBeforeFirst closeTag (sectionAfterFirst openTag line))

/-- `QString::remove(pat)` (= replace every occurrence by nothing, scanning
left to right).  Fuel-bounded; the input length is enough fuel. -/
def removeAllSubL (pat : List Char) : Nat → List Char → List Char
  | 0, l => l
  | _, [] => []
  | fuel + 1, c :: rest =>
    if isPrefixOfL pat (c :: rest) ∧ pat ≠ [] then
      removeAllSubL pat fuel ((c :: rest).drop pat.length)
    else c :: removeAllSubL pat fuel rest

/-- `QString::remove(pat)` on strings. -/
def removeAllSub (pat s : String) : String :=
  String.mk (removeAllSubL pat.data s.data.length s.data)

/-- `QString::split(sep)` with `KeepEmptyParts` (the default). -/
def splitOnCharL (sep : Char) : List Char → List (List Char)
  | [] => [[]]
  | c :: rest =>
    let r := splitOnCharL sep rest
    if c = sep then [] :: r
    else
      match r with
      | [] => [[c]]
      | h :: t => (c :: h) :: t

/-- `QString::toLower` (ASCII model). -/
def toLowerS (s : String) : String := String.mk (s.data.map Char.toLower)

/-! ## The record shape (`Item` of `src/Database.h`) -/

/-- The canonical bibliographic record, field for field as `struct Item` of
`src/Database.h`.  The `extra` JSON blob is modelled as an association list
(see the header comment). -/
structure Item where
  id : String := ""
  title : String := ""
  authors : String := ""
  year : String := ""
  type : String := ""
  doi : String := ""
  isbn : String := ""
  abstract : String := ""
  address : String := ""
  publisher : String := ""
  pdf_path : String := ""
  collection : String := ""
  url : String := ""
  journal : String := ""
  pages : String := ""
  volume : String := ""
  number : String := ""
  editor : String := ""
  booktitle : String := ""
  series : String := ""
  edition : String := ""
  chapter : String := ""
  school : String := ""
  institution : String := ""
  organization : String := ""
  howpublished : String := ""
  language : String := ""
  keywords : String := ""
  month : String := ""
  note : String := ""
  extra : List (String × String) := []
  deriving DecidableEq, Repr, Inhabited

/-! ## File-system model -/

/-- The file system visible to the import code: the list of paths that
exist.  Copying a file appends its destination. -/
structure FS where
  files : List String := []
  deriving DecidableEq, Repr, Inhabited

/-- `QFile::exists` / `std::filesystem::exists`. -/
def FS.hasFile (fs : FS) (p : String) : Bool := fs.files.contains p

/-- Unix absolute path test (used by `QDir::absoluteFilePath`). -/
def isAbsPath (p : String) : Bool :=
  match p.data with
  | c :: _ => c = '/'
  | [] => false

/-- `QDir(dir).absoluteFilePath(p)`: `p` itself when absolute, otherwise
`dir/p`. -/
def resolvePath (dir p : String) : String :=
  if isAbsPath p then p else dir ++ "/" ++ p

/-- `QFileInfo::fileName`: the component after the last `/`. -/
def fileNameOf (p : String) : String :=
  String.mk ((splitOnCharL '/' p.data).getLastD [])

/-- `QFileInfo::completeBaseName` and `QFileInfo::suffix` of a file name:
the part before the last `.` and the part after it (`(name, "")` when there
is no dot). -/
def baseAndExt (name : String) : String × String :=
  match splitOnCharL '.' name.data with
  | [] => (name, "")
  | [_] => (name, "")
  | parts => (String.mk (List.intercalate ['.'] parts.dropLast),
              String.mk (parts.getLastD []))

/-- Character class `[A-Za-z0-9_\-]` of `sanitizeName` in
`src/Importers.h`. -/
def isSanOk (c : Char) : Bool :=
  (decide ('A' ≤ c) && decide (c ≤ 'Z')) ||
  (decide ('a' ≤ c) && decide (c ≤ 'z')) ||
  (decide ('0' ≤ c) && decide (c ≤ '9')) ||
  c = '_' || c = '-'

/-- The `s.replace(QRegularExpression("_+"), "_")` step: collapse every run
of underscores to a single one. -/
def squeezeUnderscores : Bool → List Char → List Char
  | _, [] => []
  | prevU, c :: rest =>
    if c = '_' then
      if prevU then squeezeUnderscores true rest
      else '_' :: squeezeUnderscores true rest
    else c :: squeezeUnderscores false rest

/-- `sanitizeName` of `src/Importers.h` (lines 58–64): replace every
character outside `[A-Za-z0-9_-]` by `_`, then collapse underscore runs. -/
def sanitizeName (s : String) : String :=
  String.mk (squeezeUnderscores false
    (s.data.map (fun c => if isSanOk c then c else '_')))

/-! ## Attachment placement (`file` field handling of `parseBibTeXFile`) -/

/-- One collision-avoiding destination candidate
`dir/stem_idx.ext` (`ext` carries its leading dot, or is empty). -/
def destCandidate (dir stem ext : String) (idx : Nat) : String :=
  dir ++ "/" ++ stem ++ "_" ++ toString idx ++ ext

/-- The `while (std::filesystem::exists(dest)) { ... }` collision loop.
Fuel-bounded by the (finite) number of existing files plus one: the
candidates are pairwise distinct names, so the loop of the source always
stops within that many probes. -/
def freshLoop (fs : FS) (dir stem ext : String) : String → Nat → Nat → String
  | cur, _, 0 => cur
  | cur, idx, fuel + 1 =>
    if fs.hasFile cur then
      freshLoop fs dir stem ext (destCandidate dir stem ext idx) (idx + 1) fuel
    else cur

/-- Destination path for a copied attachment: `dir/fname`, renamed
`stem_N.ext` (N = 1, 2, …) until it does not collide with an existing
file. -/
def freshDest (fs : FS) (dir fname : String) : String :=
  let se := baseAndExt fname
  let ext := if se.2 = "" then "" else "." ++ se.2
  freshLoop fs dir se.1 ext (dir ++ "/" ++ fname) 1 (fs.files.length + 1)

/-- The storage folder name for an entry's attachments
(`src/Importers.h` lines 231–245): sanitized DOI, else sanitized ISBN, else
sanitized citation key, else `authorFirstToken_year` with fallbacks
`unknown` / `0000`. -/
def attachBaseName (cur : Item) (citationKey : String) : String :=
  if cur.doi ≠ "" then sanitizeName cur.doi
  else if cur.isbn ≠ "" then sanitizeName cur.isbn
  else if citationKey ≠ "" then sanitizeName citationKey
  else
    let a0 := trimS (sectionBeforeFirst "," cur.authors)
    let a := if a0 = "" then "unknown" else a0
    let y := if cur.year = "" then "0000" else cur.year
    sanitizeName (a ++ "_" ++ y)

/-- Copy one (existing) source file into the record's storage directory and
append the destination to `pdf_path` (`src/Importers.h` lines 247–272; the
copy is modelled as succeeding). -/
def attachOne (storage citationKey : String) (st : FS × Item) (absPath : String) :
    FS × Item :=
  let fs := st.1
  let cur := st.2
  let base := attachBaseName cur citationKey
  let targetDir := storage ++ "/" ++ base
  let dest := freshDest fs targetDir (fileNameOf absPath)
  let fs' : FS := ⟨fs.files ++ [dest]⟩
  let cur' :=
    if cur.pdf_path = "" then { cur with pdf_path := dest }
    else { cur with pdf_path := cur.pdf_path ++ ";" ++ dest }
  (fs', cur')

/-- Path component extracted from one (already trimmed) segment of a `file`
field value (`src/Importers.h` lines 212–222): column 1 of the
colon-separated columns when there are at least three, column 1 when there
are exactly two, the whole segment otherwise; trimmed. -/
def segPathCandidate (seg : String) : String :=
  let cols := (splitOnCharL ':' seg.data).map String.mk
  let cand :=
    if 3 ≤ cols.length then cols.getD 1 ""
    else if cols.length = 2 then cols.getD 1 ""
    else seg
  trimS cand

/-- Handling of one whole `file` field value
(`src/Importers.h` lines 207–274): split on `;` skipping empty parts; for
each segment extract the path candidate, resolve it against the directory of
the `.bib` file, silently skip it when empty or when the resolved path does
not exist, and otherwise copy it into storage and record it. -/
def processFileField (storage bibDir citationKey : String) (st0 : FS × Item)
    (value : String) : FS × Item :=
  (((splitOnCharL ';' value.data).map String.mk).filter (fun p => p ≠ "")).foldl
    (fun st p =>
      let cand := segPathCandidate (trimS p)
      if cand = "" then st
      else
        let absPath := resolvePath bibDir cand
        if st.1.hasFile absPath then attachOne storage citationKey st absPath
        else st)
    st0

/-! ## The BibTeX tokenizer/parser (`parseBibTeXFile` of `src/Importers.h`)

The C++ scans `content` with integer cursors.  The embedding keeps the
cursor-over-immutable-text shape: `cs` is the character list of the content,
positions are `Nat`s, and every `while` loop carries fuel that exceeds the
number of iterations the source loop can perform. -/

/-- `content.at(i)` (never called out of range by the guarded loops; the
default is irrelevant). -/
def charAt (cs : List Char) (i : Nat) : Char := cs.getD i ' '

/-- `content.mid(p, n)`. -/
def subL (cs : List Char) (p n : Nat) : List Char := (cs.drop p).take n

/-- `content.indexOf(c, start)`. -/
def indexOfFrom (cs : List Char) (c : Char) (start : Nat) : Option Nat :=
  match (cs.drop start).findIdx? (fun x => x = c) with
  | some k => some (start + k)
  | none => none

/-- The depth-tracked delimiter scan
`while (i < len && depth > 0) { ...; ++i; }` (entry close scan, and the
brace skip inside bare values).  Returns the final cursor and depth. -/
def scanClose (cs : List Char) (openC closeC : Char) : Nat → Nat → Nat → Nat × Nat
  | 0, i, depth => (i, depth)
  | fuel + 1, i, depth =>
    if i < cs.length ∧ 0 < depth then
      let c := charAt cs i
      let depth' := if c = openC then depth + 1 else if c = closeC then depth - 1 else depth
      scanClose cs openC closeC fuel (i + 1) depth'
    else (i, depth)

/-- `while (j < flen && fields.at(j).isSpace()) ++j;`. -/
def skipWsIdx (fields : List Char) (j : Nat) : Nat :=
  j + ((fields.drop j).takeWhile isWs).length

/-- Field-name characters: letters/digits/`_`/`-`. -/
def isNameChar (c : Char) : Bool := c.isAlphanum || c = '_' || c = '-'

/-- `while (j < flen && isNameChar(fields.at(j))) ++j;`. -/
def scanNameEnd (fields : List Char) (j : Nat) : Nat :=
  j + ((fields.drop j).takeWhile isNameChar).length

/-- `while (j < flen && fields.at(j) != ',') ++j;`. -/
def skipToCommaIdx (fields : List Char) (j : Nat) : Nat :=
  j + ((fields.drop j).takeWhile (fun c => c ≠ ',')).length

/-- Brace-delimited value scan (`src/Importers.h` lines 138–144): stops with
the cursor on the matching close brace (or at the end of input when
unbalanced). -/
def braceValEnd (fields : List Char) : Nat → Nat → Nat → Nat
  | 0, j, _ => j
  | fuel + 1, j, depth =>
    if j < fields.length ∧ 0 < depth then
      let c := charAt fields j
      let depth' := if c = lbrace then depth + 1 else if c = rbrace then depth - 1 else depth
      if 0 < depth' then braceValEnd fields fuel (j + 1) depth' else j
    else j

/-- Quote-delimited value scan (lines 149–155): a backslash escapes the
following character. -/
def quoteValEnd (fields : List Char) : Nat → Nat → Nat
  | 0, j => j
  | fuel + 1, j =>
    if j < fields.length ∧ charAt fields j ≠ '"' then
      if charAt fields j = '\\' ∧ j + 1 < fields.length then quoteValEnd fields fuel (j + 2)
      else quoteValEnd fields fuel (j + 1)
    else j

/-- Bare-value scan (lines 158–175): up to the next top-level comma,
depth-skipping embedded `{...}` groups. -/
def bareValEnd (fields : List Char) : Nat → Nat → Nat
  | 0, j => j
  | fuel + 1, j =>
    if j < fields.length ∧ charAt fields j ≠ ',' then
      if charAt fields j = lbrace then
        bareValEnd fields fuel (scanClose fields lbrace rbrace (fields.length + 1) (j + 1) 1).1
      else bareValEnd fields fuel (j + 1)
    else j

/-- Assignment of a cleaned field value to the record
(`src/Importers.h` lines 181–280), in source order; `file` routes to
attachment handling, an unknown name is appended to the note as
`name = {value}`. -/
def assignField (storage bibDir citationKey : String) (cur : Item) (fs : FS)
    (name value : String) : Item × FS :=
  if name = "title" then ({ cur with title := value }, fs)
  else if name = "author" then ({ cur with authors := value }, fs)
  else if name = "year" then ({ cur with year := value }, fs)
  else if name = "doi" then ({ cur with doi := value }, fs)
  else if name = "isbn" then ({ cur with isbn := value }, fs)
  else if name = "abstract" then ({ cur with abstract := value }, fs)
  else if name = "address" then ({ cur with address := value }, fs)
  else if name = "publisher" then ({ cur with publisher := value }, fs)
  else if name = "editor" then ({ cur with editor := value }, fs)
  else if name = "booktitle" then ({ cur with booktitle := value }, fs)
  else if name = "series" then ({ cur with series := value }, fs)
  else if name = "edition" then ({ cur with edition := value }, fs)
  else if name = "chapter" then ({ cur with chapter := value }, fs)
  else if name = "school" then ({ cur with school := value }, fs)
  else if name = "institution" then ({ cur with institution := value }, fs)
  else if name = "organization" then ({ cur with organization := value }, fs)
  else if name = "howpublished" then ({ cur with howpublished := value }, fs)
  else if name = "language" then ({ cur with language := value }, fs)
  else if name = "url" then ({ cur with url := value }, fs)
  else if name = "journal" then ({ cur with journal := value }, fs)
  else if name = "pages" then ({ cur with pages := value }, fs)
  else if name = "volume" then ({ cur with volume := value }, fs)
  else if name = "number" then ({ cur with number := value }, fs)
  else if name = "keywords" then ({ cur with keywords := value }, fs)
  else if name = "month" then ({ cur with month := value }, fs)
  else if name = "note" then ({ cur with note := value }, fs)
  else if name = "file" then
    let r := processFileField storage bibDir citationKey (fs, cur) value
    (r.2, r.1)
  else
    let pair := name ++ " = \x7b" ++ value ++ "\x7d"
    ({ cur with note := if cur.note = "" then pair else cur.note ++ "; " ++ pair }, fs)

/-- The field-list scanning loop (`src/Importers.h` lines 114–285).  Each
C++ iteration advances `j`, so `flen + 2` fuel is enough. -/
def parseFieldsLoop (storage bibDir citationKey : String) (fields : List Char) :
    Nat → Nat → Item → FS → Item × FS
  | 0, _, cur, fs => (cur, fs)
  | fuel + 1, j, cur, fs =>
    let flen := fields.length
    let j1 := skipWsIdx fields j
    if flen ≤ j1 then (cur, fs)
    else
      let j2 := scanNameEnd fields j1
      let name := toLowerS (trimS (String.mk (subL fields j1 (j2 - j1))))
      let j3 := skipWsIdx fields j2
      if flen ≤ j3 ∨ charAt fields j3 ≠ '=' then
        let j4 := skipToCommaIdx fields j3
        let j5 := if j4 < flen then j4 + 1 else j4
        parseFieldsLoop storage bibDir citationKey fields fuel j5 cur fs
      else
        let j5 := skipWsIdx fields (j3 + 1)
        let rv :=
          if j5 < flen ∧ charAt fields j5 = lbrace then
            let jend := braceValEnd fields (flen + 1) (j5 + 1) 1
            (String.mk (subL fields (j5 + 1) (jend - (j5 + 1))),
             if jend < flen then jend + 1 else jend)
          else if j5 < flen ∧ charAt fields j5 = '"' then
            let jend := quoteValEnd fields (flen + 1) (j5 + 1)
            (String.mk (subL fields (j5 + 1) (jend - (j5 + 1))),
             if jend < flen then jend + 1 else jend)
          else
            let jend := bareValEnd fields (flen + 1) j5
            (String.mk (subL fields j5 (jend - j5)), jend)
        let value := cleanValue rv.1
        let cf := assignField storage bibDir citationKey cur fs name value
        let j7 := skipWsIdx fields rv.2
        let j8 := if j7 < flen ∧ charAt fields j7 = ',' then j7 + 1 else j7
        parseFieldsLoop storage bibDir citationKey fields fuel j8 cf.1 cf.2

/-- The entry scanning loop (`src/Importers.h` lines 66–292): find `@`, find
the nearer of `{` and `(`, depth-scan to the matching close (unbalanced
depth ends parsing), split citation key from the field list, parse fields,
and emit the entry when it carries any signal. -/
def parseEntriesLoop (storage bibDir : String) (cs : List Char) :
    Nat → Nat → FS → List Item → List Item × FS
  | 0, _, fs, acc => (acc, fs)
  | fuel + 1, pos, fs, acc =>
    match indexOfFrom cs '@' pos with
    | none => (acc, fs)
    | some atPos =>
      let sb := indexOfFrom cs lbrace atPos
      let sp := indexOfFrom cs '(' atPos
      let startInfo : Option (Nat × Char × Char) :=
        match sb, sp with
        | some b, some p => if b < p then some (b, lbrace, rbrace) else some (p, '(', ')')
        | some b, none => some (b, lbrace, rbrace)
        | none, some p => some (p, '(', ')')
        | none, none => none
      match startInfo with
      | none => (acc, fs)
      | some (start, openC, closeC) =>
        let sc := scanClose cs openC closeC (cs.length + 1) (start + 1) 1
        if sc.2 ≠ 0 then (acc, fs)
        else
          let iEnd := sc.1
          let entryBlock := subL cs (start + 1) (iEnd - start - 2)
          let entryType := toLowerS (trimS (String.mk (subL cs (atPos + 1) (start - atPos - 1))))
          let commaIdx := entryBlock.findIdx? (fun c => c = ',')
          let citationKey :=
            match commaIdx with
            | some k => trimS (String.mk (entryBlock.take k))
            | none => ""
          let fields :=
            match commaIdx with
            | some k => entryBlock.drop (k + 1)
            | none => entryBlock
          let pf := parseFieldsLoop storage bibDir citationKey fields
            (fields.length + 2) 0 { (default : Item) with type := entryType } fs
          let cur := pf.1
          let emit := cur.title ≠ "" ∨ cur.authors ≠ "" ∨ cur.doi ≠ "" ∨ cur.isbn ≠ "" ∨
            cur.pdf_path ≠ "" ∨ citationKey ≠ "" ∨ cur.url ≠ "" ∨ cur.note ≠ ""
          parseEntriesLoop storage bibDir cs fuel iEnd pf.2
            (if emit then acc ++ [cur] else acc)

/-- `parseBibTeXFile` on already-read content (reading the file is I/O;
`bibDir` is the directory containing the `.bib` file, `storage` the
attachment storage root `~/.local/share/bello/storage`).  Returns the parsed
items and the file system after attachment copies. -/
def parseBibTeX (fs : FS) (storage bibDir content : String) : List Item × FS :=
  parseEntriesLoop storage bibDir content.data (content.data.length + 1) 0 fs []

/-! ## Line-oriented XML importers (`parseEndNoteXMLFile`, `parseMendeleyXMLFile`) -/

/-- One line of `parseEndNoteXMLFile` (`src/Importers.h` lines 422–443):
`<record>` pushes the current record when it has a title or authors and
resets; the tag checks then update the (possibly reset) record. -/
def endnoteStep (st : List Item × Item) (line : String) : List Item × Item :=
  let out := st.1
  let cur := st.2
  let oc :=
    if containsStr line "<record>" then
      (if cur.title ≠ "" ∨ cur.authors ≠ "" then out ++ [cur] else out, (default : Item))
    else (out, cur)
  let out := oc.1
  let cur := oc.2
  let cur := if containsStr line "<title>" then
      { cur with title := textBetween "<title>" "</title>" line } else cur
  let cur := if containsStr line "<author>" then
      { cur with authors := textBetween "<author>" "</author>" line } else cur
  let cur := if containsStr line "<year>" then
      { cur with year := textBetween "<year>" "</year>" line } else cur
  let cur := if containsStr line "<publisher>" then
      { cur with publisher := textBetween "<publisher>" "</publisher>" line } else cur
  let cur := if containsStr line "<electronic-resource-num>" then
      { cur with doi := textBetween "<electronic-resource-num>" "</electronic-resource-num>" line }
    else cur
  (out, cur)

/-- `parseEndNoteXMLFile` on the lines of the file. -/
def parseEndNoteXML (lines : List String) : List Item :=
  let r := lines.foldl endnoteStep ([], (default : Item))
  if r.2.title ≠ "" ∨ r.2.authors ≠ "" then r.1 ++ [r.2] else r.1

/-- One line of `parseMendeleyXMLFile` (`src/Importers.h` lines 454–477);
record boundary `<document>`, author tags stripped in source order. -/
def mendeleyStep (st : List Item × Item) (line : String) : List Item × Item :=
  let out := st.1
  let cur := st.2
  let oc :=
    if containsStr line "<document>" then
      (if cur.title ≠ "" ∨ cur.authors ≠ "" then out ++ [cur] else out, (default : Item))
    else (out, cur)
  let out := oc.1
  let cur := oc.2
  let cur := if containsStr line "<title>" then
      { cur with title := textBetween "<title>" "</title>" line } else cur
  let cur := if containsStr line "<authors>" then
      { cur with authors := trimS (removeAllSub "</author>" (removeAllSub "<author>"
        (removeAllSub "</authors>" (removeAllSub "<authors>" line)))) }
    else cur
  let cur := if containsStr line "<publisher>" then
      { cur with publisher := textBetween "<publisher>" "</publisher>" line } else cur
  let cur := if containsStr line "<year>" then
      { cur with year := textBetween "<year>" "</year>" line } else cur
  let cur := if containsStr line "<doi>" then
      { cur with doi := textBetween "<doi>" "</doi>" line } else cur
  (out, cur)

/-- `parseMendeleyXMLFile` on the lines of the file. -/
def parseMendeleyXML (lines : List String) : List Item :=
  let r := lines.foldl mendeleyStep ([], (default : Item))
  if r.2.title ≠ "" ∨ r.2.authors ≠ "" then r.1 ++ [r.2] else r.1

/-! ## The record store (`Database` of `src/Database.h`) -/

/-- Decidable string order used to model SQL `ORDER BY collection`. -/
def strLe (a b : String) : Bool := decide (a ≤ b)

/-- Insert into a `strLe`-sorted list. -/
def insertSorted (a : String) : List String → List String
  | [] => [a]
  | b :: rest => if strLe a b then a :: b :: rest else b :: insertSorted a rest

/-- Insertion sort by `strLe` (models SQL `ORDER BY`). -/
def sortStrs : List String → List String
  | [] => []
  | a :: rest => insertSorted a (sortStrs rest)

/-- The relational store: the `items` table, the `item_collections` join
table and the `collections` table. -/
structure Store where
  items : List Item := []
  itemCollections : List (String × String) := []
  collections : List String := []
  deriving DecidableEq, Repr, Inhabited

/-- `Database::findItemByDOI`: nothing for an empty key, otherwise the first
row with that exact DOI. -/
def findItemByDOI (st : Store) (doi : String) : Option Item :=
  if doi = "" then none else st.items.find? (fun r => r.doi == doi)

/-- `Database::findItemByISBN`. -/
def findItemByISBN (st : Store) (isbn : String) : Option Item :=
  if isbn = "" then none else st.items.find? (fun r => r.isbn == isbn)

/-- `Database::findItemByTitleAndAuthor`: both keys must be non-empty; exact
string equality on both. -/
def findItemByTitleAndAuthor (st : Store) (title authors : String) : Option Item :=
  if title = "" ∨ authors = "" then none
  else st.items.find? (fun r => r.title == title && r.authors == authors)

/-- `Database::getItemCollections`: the join-table rows of the item, in
collection order (`ORDER BY collection`). -/
def getItemCollections (st : Store) (itemId : String) : List String :=
  sortStrs ((st.itemCollections.filter (fun pr => pr.1 == itemId)).map (fun pr => pr.2))

/-- Tail of `Database::addItemToCollection`: reset the item's primary
`collection` column to the first of its sorted memberships (a no-op when the
item has none). -/
def addItemToCollectionAux (s : Store) (itemId : String) : Store :=
  match getItemCollections s itemId with
  | [] => s
  | c0 :: _ =>
    { s with items := s.items.map (fun r =>
        if r.id == itemId then { r with collection := c0 } else r) }

/-- `Database::addItemToCollection` (`src/Database.h` lines 621–635): ensure
the collection row exists, insert-or-ignore the join row, and reset the
item's primary `collection` column to the first of its sorted
memberships. -/
def addItemToCollection (st : Store) (itemId coll : String) : Store :=
  if itemId = "" ∨ coll = "" then st
  else
    addItemToCollectionAux
      { items := st.items,
        itemCollections := if st.itemCollections.contains (itemId, coll) then st.itemCollections
          else st.itemCollections ++ [(itemId, coll)],
        collections := if st.collections.contains coll then st.collections
          else st.collections ++ [coll] }
      itemId

/-- `Database::addItem` (`src/Database.h` lines 149–193): the SQL `INSERT`
is rejected (logged and swallowed) when the primary key already exists;
afterwards the item is linked to its collection when one is set. -/
def addItem (st : Store) (it : Item) : Store :=
  let st1 := if st.items.any (fun r => r.id == it.id) then st
             else { st with items := st.items ++ [it] }
  if it.collection ≠ "" then addItemToCollection st1 it.id it.collection else st1

/-- `Database::updateItem` (`src/Database.h` lines 195–238): ensure the
collection row exists, then overwrite every column of the row with that
id. -/
def updateItem (st : Store) (it : Item) : Store :=
  let cols := if it.collection ≠ "" ∧ ¬ st.collections.contains it.collection then
      st.collections ++ [it.collection] else st.collections
  { st with collections := cols,
            items := st.items.map (fun r => if r.id == it.id then it else r) }

/-! ## Identity resolution and merge (`BrowserConnector` of
`src/BrowserConnector.h`) -/

/-- The identity lookup of the connector save path
(`src/BrowserConnector.h` lines 144–147): DOI first, then ISBN when nothing
was found yet, then title+authors when nothing was found yet. -/
def resolveIdentity (st : Store) (doi isbn title authors : String) : Option Item :=
  let r1 := if doi ≠ "" then findItemByDOI st doi else none
  match r1 with
  | some e => some e
  | none =>
    let r2 := if isbn ≠ "" then findItemByISBN st isbn else none
    match r2 with
    | some e => some e
    | none =>
      if title ≠ "" ∧ authors ≠ "" then findItemByTitleAndAuthor st title authors
      else none

/-- The identity-resolution priority exactly as the specification words it:
exact match on non-empty DOI; else exact match on non-empty ISBN only if the
DOI lookup found nothing or the DOI was empty; else exact match on
(title, authors) with both non-empty only if neither earlier lookup matched;
else `New` (`none`). -/
def resolveIdentitySpec (st : Store) (doi isbn title authors : String) : Option Item :=
  if doi ≠ "" ∧ (findItemByDOI st doi).isSome then findItemByDOI st doi
  else if isbn ≠ "" ∧ (findItemByISBN st isbn).isSome then findItemByISBN st isbn
  else if title ≠ "" ∧ authors ≠ "" then findItemByTitleAndAuthor st title authors
  else none

/-- `mergeIfEmpty` of the connector merge block
(`src/BrowserConnector.h` line 250): fill the destination only when it is
empty and the source is not. -/
def mergeIfEmpty (dest src : String) : String :=
  if dest = "" ∧ src ≠ "" then src else dest

/-- `QJsonObject::insert`: replace the value at the key, or add the pair. -/
def jsonInsert (m : List (String × String)) (k v : String) : List (String × String) :=
  if m.any (fun pr => pr.1 == k) then m.map (fun pr => if pr.1 == k then (k, v) else pr)
  else m ++ [(k, v)]

/-- `QJsonObject::value` as a lookup. -/
def jsonLookup (m : List (String × String)) (k : String) : Option String :=
  (m.find? (fun pr => pr.1 == k)).map (fun pr => pr.2)

/-- One iteration of the extras merge loop
(`src/BrowserConnector.h` line 277): the incoming key is inserted when the
accumulated map lacks it or holds only whitespace for it. -/
def jsonMergeStep (acc : List (String × String)) (kv : String × String) :
    List (String × String) :=
  match jsonLookup acc kv.1 with
  | none => jsonInsert acc kv.1 kv.2
  | some v => if trimS v = "" then jsonInsert acc kv.1 kv.2 else acc

/-- The extras merge loop over all incoming keys. -/
def jsonMergeInto (old incoming : List (String × String)) : List (String × String) :=
  incoming.foldl jsonMergeStep old

/-- The merge block of the connector save path
(`src/BrowserConnector.h` lines 250–278): merge-if-empty on the thirteen
scalar fields it names, append the incoming `pdf_path` when non-empty, and
merge the extra-field maps. -/
def mergeItem (e i : Item) : Item :=
  let e := { e with
    title := mergeIfEmpty e.title i.title,
    authors := mergeIfEmpty e.authors i.authors,
    year := mergeIfEmpty e.year i.year,
    type := mergeIfEmpty e.type i.type,
    doi := mergeIfEmpty e.doi i.doi,
    isbn := mergeIfEmpty e.isbn i.isbn,
    publisher := mergeIfEmpty e.publisher i.publisher,
    pages := mergeIfEmpty e.pages i.pages,
    volume := mergeIfEmpty e.volume i.volume,
    number := mergeIfEmpty e.number i.number,
    journal := mergeIfEmpty e.journal i.journal,
    url := mergeIfEmpty e.url i.url,
    abstract := mergeIfEmpty e.abstract i.abstract }
  let e :=
    if i.pdf_path ≠ "" then
      if e.pdf_path = "" then { e with pdf_path := i.pdf_path }
      else { e with pdf_path := e.pdf_path ++ ";" ++ i.pdf_path }
    else e
  { e with extra := jsonMergeInto e.extra i.extra }

/-- The store effect of a matched save
(`src/BrowserConnector.h` lines 280–281): add the existing item to the
incoming collection when one is given, then persist the merged record. -/
def mergeAndPersist (st : Store) (existing incoming : Item) : Store :=
  let m := mergeItem existing incoming
  let st1 := if incoming.collection ≠ "" then
      addItemToCollection st existing.id incoming.collection else st
  updateItem st1 m

/-! ## The file-import orchestrator (`MainWindow::importBibTeX` of
`src/LeftSection.h` lines 445–455) -/

/-- The per-record loop of `MainWindow::importBibTeX`: assign a fresh id
(`gen_uuid`, modelled as consuming the supply `ids`), set the target
collection, write to the store, and count — unconditionally. -/
def importFold (collection : String) : List Item → List String → Store → Nat × Store
  | [], _, st => (0, st)
  | it :: rest, ids, st =>
    let it' := { it with id := ids.headD "", collection := collection }
    let st' := addItem st it'
    let r := importFold collection rest ids.tail st'
    (r.1 + 1, r.2)

/-- `MainWindow::importBibTeX`: parse the file, then persist every parsed
record as a new row.  Returns the reported count, the store and the file
system after attachment copies. -/
def importBibTeX (fs : FS) (storage bibDir content : String) (ids : List String)
    (collection : String) (st : Store) : Nat × Store × FS :=
  let p := parseBibTeX fs storage bibDir content
  let r := importFold collection p.1 ids st
  (r.1, r.2, p.2)

/-! ## Specification-side definitions

These definitions follow the wording of the specification (or of an amended
claim); the theorems below compare them with the code-side definitions
above. -/

/-- Path extraction from a `file`-field segment as the amended claim words
it: the second colon-separated column whenever the segment has at least two
columns, the whole segment otherwise. -/
def segPathCandidateSpec (seg : String) : String :=
  let cols := (splitOnCharL ':' seg.data).map String.mk
  trimS (if 2 ≤ cols.length then cols.getD 1 "" else seg)

/-- `file`-field handling as the amended claim words it: for every non-empty
`;`-separated segment, extract the path candidate
(`segPathCandidateSpec`), resolve it against the `.bib` directory unless it
is absolute, drop the segment silently (record and file system unchanged)
when the candidate is empty or the resolved path does not exist, and attach
the resolved path otherwise. -/
def processFileFieldSpec (storage bibDir citationKey : String) (st0 : FS × Item)
    (value : String) : FS × Item :=
  (((splitOnCharL ';' value.data).map String.mk).filter (fun p => p ≠ "")).foldl
    (fun st p =>
      let cand := segPathCandidateSpec (trimS p)
      if cand ≠ "" ∧ st.1.hasFile (resolvePath bibDir cand) then
        attachOne storage citationKey st (resolvePath bibDir cand)
      else st)
    st0

/-! ## Shape predicates for the value cleaner -/

/-- Every whitespace character is a plain space. -/
def wsOnlySpace (l : List Char) : Prop := ∀ c ∈ l, isWs c = true → c = ' '

/-- No two adjacent whitespace characters. -/
def noAdjWs (l : List Char) : Prop :=
  List.Chain' (fun a b => ¬(isWs a = true ∧ isWs b = true)) l

/-- No leading and no trailing whitespace. -/
def trimmedP (l : List Char) : Prop :=
  (∀ c, l.head? = some c → isWs c = false) ∧ (∀ c, l.getLast? = some c → isWs c = false)

/-- The two-character pattern `a b` does not occur. -/
@[reducible] def noPairP (a b : Char) (l : List Char) : Prop :=
  List.Chain' (fun x y => ¬(x = a ∧ y = b)) l

/-- Kernel-computable decision procedure for `noPairP`. -/
instance noPairDec (a b : Char) : (l : List Char) → Decidable (noPairP a b l)
  | [] => isTrue List.chain'_nil
  | [c] => isTrue (List.chain'_singleton c)
  | c :: d :: rest =>
    haveI : Decidable (noPairP a b (d :: rest)) := noPairDec a b (d :: rest)
    have h : noPairP a b (c :: d :: rest) ↔ (¬(c = a ∧ d = b) ∧ noPairP a b (d :: rest)) :=
      List.chain'_cons
    decidable_of_iff (¬(c = a ∧ d = b) ∧ noPairP a b (d :: rest)) h.symm

/-- Neither brace occurs. -/
def noBraceP (l : List Char) : Prop := ∀ c ∈ l, c ≠ lbrace ∧ c ≠ rbrace

/-- The residual conditions under which a cleaned value is a fixed point of
`cleanValue`: no trailing comma, not wrapped in double quotes, and none of
the escape pairs `\%`, `\&`, `\_`, `\$` present. -/
@[reducible] def cleanStable (y : String) : Prop :=
  y.data.getLast? ≠ some ',' ∧
  ¬(2 ≤ y.data.length ∧ y.data.head? = some '"' ∧ y.data.getLast? = some '"') ∧
  noPairP '\\' '%' y.data ∧ noPairP '\\' '&' y.data ∧
  noPairP '\\' '_' y.data ∧ noPairP '\\' '$' y.data

/-- Keys of an extra-field map are pairwise distinct (the `QJsonObject`
invariant). -/
def nodupKeys (m : List (String × String)) : Prop := (m.map (fun pr => pr.1)).Nodup

instance (m : List (String × String)) : Decidable (nodupKeys m) := by
  unfold nodupKeys
  infer_instance

/-! # Theorems -/

/-- `mergeIfEmpty` in closed form. -/
theorem mergeIfEmpty_eq (dest src : String) :
    mergeIfEmpty dest src = if dest = "" then src else dest := by
  unfold mergeIfEmpty
  by_cases hd : dest = "" <;> by_cases hs : src = "" <;> simp [hd, hs]

/-- Folding the same pointwise-equal step functions gives the same result. -/
theorem foldl_congr_fun {α β : Type} (f g : β → α → β) (h : ∀ s x, f s x = g s x) :
    ∀ (l : List α) (s : β), l.foldl f s = l.foldl g s := by
  intro l
  induction l with
  | nil => intro s; rfl
  | cons x rest ih => intro s; simp only [List.foldl_cons, h s x, ih]

/-- The code-side segment path extraction agrees with the merged-branch
description. -/
theorem segPathCandidate_eq_spec (seg : String) :
    segPathCandidate seg = segPathCandidateSpec seg := by
  unfold segPathCandidate segPathCandidateSpec
  by_cases h3 : 3 ≤ (splitOnCharL ':' seg.data).length
  · have h2 : 2 ≤ (splitOnCharL ':' seg.data).length := by omega
    simp [h3, h2]
  · by_cases h2 : (splitOnCharL ':' seg.data).length = 2
    · have h2' : 2 ≤ (splitOnCharL ':' seg.data).length := by omega
      simp [h3, h2, h2']
    · have h2' : ¬ 2 ≤ (splitOnCharL ':' seg.data).length := by omega
      simp [h3, h2, h2']

/-- C9: `parseBibTeX` terminates on every input (it is a total function of
the content) and the unterminated entry `@misc{k2, title = {Unterminated`
yields zero records for every file system, storage root and source
directory: the unbalanced depth ends parsing of the document. -/
theorem c9_parser_survives_unterminated :
    ∀ (fs : FS) (storage bibDir : String),
      (parseBibTeX fs storage bibDir "@misc\x7bk2, title = \x7bUnterminated").1 = [] :=
  fun _ _ _ => rfl

/-- C5: the connector's identity lookup implements exactly the specified
priority: non-empty DOI exact match first; non-empty ISBN exact match only
when the DOI lookup found nothing or the DOI was empty; (title, authors)
exact match with both non-empty only when neither earlier lookup matched;
and `New` (`none`) when no lookup matches, including when all keys are
empty. -/
theorem c5_identity_priority (st : Store) (doi isbn title authors : String) :
    resolveIdentity st doi isbn title authors = resolveIdentitySpec st doi isbn title authors := by
  unfold resolveIdentity resolveIdentitySpec
  by_cases hd : doi = ""
  · by_cases hi : isbn = ""
    · simp [hd, hi]
    · cases hfi : findItemByISBN st isbn with
      | none => simp [hd, hi, hfi]
      | some e => simp [hd, hi, hfi]
  · cases hfd : findItemByDOI st doi with
    | none =>
      by_cases hi : isbn = ""
      · simp [hd, hi, hfd]
      · cases hfi : findItemByISBN st isbn with
        | none => simp [hd, hi, hfd, hfi]
        | some e => simp [hd, hi, hfd, hfi]
    | some e => simp [hd, hfd]

/-- C3 counterexample: merging a record whose attachment list already holds
`p` with an incoming record holding the same path `p` produces the list
`p;p` — a duplicate path string, not a set union. -/
theorem c3_counterexample :
    ¬ (((splitOnCharL ';'
        (mergeItem { (default : Item) with pdf_path := "p" }
          { (default : Item) with pdf_path := "p" }).pdf_path.data).map String.mk).Nodup) := by
  decide

/-- C3 amended: merging never removes or overwrites existing attachment
paths — a non-empty incoming `pdf_path` is appended after a `;` (and an
empty one leaves the list unchanged) — but no de-duplication is performed,
so the result is a plain append rather than a set union. -/
theorem c3_pdf_append (e i : Item) :
    (mergeItem e i).pdf_path =
      if i.pdf_path = "" then e.pdf_path
      else if e.pdf_path = "" then i.pdf_path
      else e.pdf_path ++ ";" ++ i.pdf_path := by
  unfold mergeItem
  by_cases hi : i.pdf_path = "" <;> by_cases he : e.pdf_path = "" <;> simp [hi, he]

/-- C4 counterexample: the merge block never fills the `editor` field — an
incoming editor for a record with an empty editor is dropped. -/
theorem c4_counterexample :
    (mergeItem (default : Item) { (default : Item) with editor := "E" }).editor ≠ "E" := by
  decide

/-- C4 amended: merge-if-empty is applied exactly to the thirteen canonical
scalar fields title, authors, year, type, doi, isbn, publisher, pages,
volume, number, journal, url and abstract; every other canonical scalar
field (editor, booktitle, series, edition, chapter, school, institution,
organization, howpublished, language, keywords, month, note, address) is
left unchanged by the merge even when the existing value is empty and the
incoming one is not. -/
theorem c4_merge_field_coverage (e i : Item) :
    (mergeItem e i).title = (if e.title = "" then i.title else e.title) ∧
    (mergeItem e i).authors = (if e.authors = "" then i.authors else e.authors) ∧
    (mergeItem e i).year = (if e.year = "" then i.year else e.year) ∧
    (mergeItem e i).type = (if e.type = "" then i.type else e.type) ∧
    (mergeItem e i).doi = (if e.doi = "" then i.doi else e.doi) ∧
    (mergeItem e i).isbn = (if e.isbn = "" then i.isbn else e.isbn) ∧
    (mergeItem e i).publisher = (if e.publisher = "" then i.publisher else e.publisher) ∧
    (mergeItem e i).pages = (if e.pages = "" then i.pages else e.pages) ∧
    (mergeItem e i).volume = (if e.volume = "" then i.volume else e.volume) ∧
    (mergeItem e i).number = (if e.number = "" then i.number else e.number) ∧
    (mergeItem e i).journal = (if e.journal = "" then i.journal else e.journal) ∧
    (mergeItem e i).url = (if e.url = "" then i.url else e.url) ∧
    (mergeItem e i).abstract = (if e.abstract = "" then i.abstract else e.abstract) ∧
    (mergeItem e i).editor = e.editor ∧
    (mergeItem e i).booktitle = e.booktitle ∧
    (mergeItem e i).series = e.series ∧
    (mergeItem e i).edition = e.edition ∧
    (mergeItem e i).chapter = e.chapter ∧
    (mergeItem e i).school = e.school ∧
    (mergeItem e i).institution = e.institution ∧
    (mergeItem e i).organization = e.organization ∧
    (mergeItem e i).howpublished = e.howpublished ∧
    (mergeItem e i).language = e.language ∧
    (mergeItem e i).keywords = e.keywords ∧
    (mergeItem e i).month = e.month ∧
    (mergeItem e i).note = e.note ∧
    (mergeItem e i).address = e.address := by
  unfold mergeItem
  by_cases hi : i.pdf_path = "" <;> by_cases he : e.pdf_path = "" <;>
    simp [hi, he, mergeIfEmpty_eq]

/-- C6 counterexample: for a segment of shape `path:mimetype`
(two colon-separated columns), the code extracts the second column — the
mimetype — not the path component. -/
theorem c6_counterexample : segPathCandidate "f.pdf:application/pdf" ≠ "f.pdf" := by
  decide

/-- C6 amended: for every segment of a `file` field value, the extracted
candidate is the second colon-separated column whenever the segment has at
least two columns (so for a `Description:path:mimetype` segment the path,
but for a `path:mimetype` segment the mimetype), and the whole segment when
it has no colon; the candidate is resolved against the directory of the
`.bib` file unless absolute, and a segment whose candidate is empty or whose
resolved path does not exist is silently dropped, leaving the record and
file system unchanged and failing nothing. -/
theorem c6_file_field_extraction (storage bibDir citationKey : String)
    (st0 : FS × Item) (value : String) :
    processFileField storage bibDir citationKey st0 value =
      processFileFieldSpec storage bibDir citationKey st0 value := by
  unfold processFileField processFileFieldSpec
  apply foldl_congr_fun
  intro st p
  rw [segPathCandidate_eq_spec]
  by_cases hc : segPathCandidateSpec (trimS p) = ""
  · simp [hc]
  · by_cases hf : st.1.hasFile (resolvePath bibDir (segPathCandidateSpec (trimS p))) = true
    · simp [hc, hf]
    · simp [hc, hf]

/-- Every record the EndNote line step has pushed has a title or authors. -/
theorem endnoteStep_inv (st : List Item × Item) (line : String)
    (h : ∀ it ∈ st.1, it.title ≠ "" ∨ it.authors ≠ "") :
    ∀ it ∈ (endnoteStep st line).1, it.title ≠ "" ∨ it.authors ≠ "" := by
  intro it hm
  unfold endnoteStep at hm
  by_cases hc : containsStr line "<record>" = true
  · simp only [hc, if_true, if_pos] at hm
    by_cases hg : st.2.title ≠ "" ∨ st.2.authors ≠ ""
    · simp only [hg, if_true, if_pos] at hm
      rcases List.mem_append.mp hm with hin | hone
      · exact h it hin
      · rw [List.mem_singleton] at hone
        rw [hone]
        exact hg
    · simp only [hg, if_false, if_neg, not_false_iff] at hm
      exact h it hm
  · simp only [hc, if_false, if_neg, not_false_iff] at hm
    exact h it hm

/-- Every record the Mendeley line step has pushed has a title or authors. -/
theorem mendeleyStep_inv (st : List Item × Item) (line : String)
    (h : ∀ it ∈ st.1, it.title ≠ "" ∨ it.authors ≠ "") :
    ∀ it ∈ (mendeleyStep st line).1, it.title ≠ "" ∨ it.authors ≠ "" := by
  intro it hm
  unfold mendeleyStep at hm
  by_cases hc : containsStr line "<document>" = true
  · simp only [hc, if_true, if_pos] at hm
    by_cases hg : st.2.title ≠ "" ∨ st.2.authors ≠ ""
    · simp only [hg, if_true, if_pos] at hm
      rcases List.mem_append.mp hm with hin | hone
      · exact h it hin
      · rw [List.mem_singleton] at hone
        rw [hone]
        exact hg
    · simp only [hg, if_false, if_neg, not_false_iff] at hm
      exact h it hm
  · simp only [hc, if_false, if_neg, not_false_iff] at hm
    exact h it hm

/-- The pushed-records invariant carried through the EndNote fold. -/
theorem endnote_fold_inv (lines : List String) :
    ∀ (st : List Item × Item), (∀ it ∈ st.1, it.title ≠ "" ∨ it.authors ≠ "") →
      ∀ it ∈ (lines.foldl endnoteStep st).1, it.title ≠ "" ∨ it.authors ≠ "" := by
  induction lines with
  | nil => intro st h it hm; exact h it hm
  | cons line rest ih =>
    intro st h
    exact ih (endnoteStep st line) (endnoteStep_inv st line h)

/-- The pushed-records invariant carried through the Mendeley fold. -/
theorem mendeley_fold_inv (lines : List String) :
    ∀ (st : List Item × Item), (∀ it ∈ st.1, it.title ≠ "" ∨ it.authors ≠ "") →
      ∀ it ∈ (lines.foldl mendeleyStep st).1, it.title ≠ "" ∨ it.authors ≠ "" := by
  induction lines with
  | nil => intro st h it hm; exact h it hm
  | cons line rest ih =>
    intro st h
    exact ih (mendeleyStep st line) (mendeleyStep_inv st line h)

/-- C10: every record emitted by the EndNote XML parser or the Mendeley XML
parser has a non-empty title or non-empty authors; a record block whose
fields include only a DOI, year or publisher is discarded by the emission
guard and never reaches the downstream pipeline. -/
theorem c10_xml_emission_guard (lines : List String) :
    (∀ it ∈ parseEndNoteXML lines, it.title ≠ "" ∨ it.authors ≠ "") ∧
    (∀ it ∈ parseMendeleyXML lines, it.title ≠ "" ∨ it.authors ≠ "") := by
  constructor
  · intro it hm
    unfold parseEndNoteXML at hm
    have hinv := endnote_fold_inv lines ([], (default : Item)) (by intro x hx; cases hx)
    by_cases hg : (lines.foldl endnoteStep ([], (default : Item))).2.title ≠ "" ∨
        (lines.foldl endnoteStep ([], (default : Item))).2.authors ≠ ""
    · simp only [hg, if_true, if_pos] at hm
      rcases List.mem_append.mp hm with hin | hone
      · exact hinv it hin
      · rw [List.mem_singleton] at hone
        rw [hone]
        exact hg
    · simp only [hg, if_false, if_neg, not_false_iff] at hm
      exact hinv it hm
  · intro it hm
    unfold parseMendeleyXML at hm
    have hinv := mendeley_fold_inv lines ([], (default : Item)) (by intro x hx; cases hx)
    by_cases hg : (lines.foldl mendeleyStep ([], (default : Item))).2.title ≠ "" ∨
        (lines.foldl mendeleyStep ([], (default : Item))).2.authors ≠ ""
    · simp only [hg, if_true, if_pos] at hm
      rcases List.mem_append.mp hm with hin | hone
      · exact hinv it hin
      · rw [List.mem_singleton] at hone
        rw [hone]
        exact hg
    · simp only [hg, if_false, if_neg, not_false_iff] at hm
      exact hinv it hm

/-- Witness for C10 at a concrete input: the single record parsed from
`<title>A</title>` indeed has a non-empty title or authors. -/
theorem c10_xml_emission_guard_witness :
    ({ (default : Item) with title := "A" } : Item).title ≠ "" ∨
      ({ (default : Item) with title := "A" } : Item).authors ≠ "" :=
  (c10_xml_emission_guard ["<title>A</title>"]).1
    { (default : Item) with title := "A" } (by decide)

/-- The primary-collection reset touches `collection` columns only: the ids
of the item rows are unchanged. -/
theorem addItemToCollectionAux_ids (s : Store) (itemId : String) :
    (addItemToCollectionAux s itemId).items.map Item.id = s.items.map Item.id := by
  unfold addItemToCollectionAux
  cases hg : getItemCollections s itemId with
  | nil => rfl
  | cons c0 cs =>
    simp only [List.map_map]
    apply List.map_congr_left
    intro r _
    by_cases hr : r.id = itemId <;> simp [hr]

/-- `addItemToCollection` touches collection columns only: the ids of the
item rows are unchanged. -/
theorem addItemToCollection_ids (st : Store) (itemId coll : String) :
    (addItemToCollection st itemId coll).items.map Item.id = st.items.map Item.id := by
  unfold addItemToCollection
  by_cases h0 : itemId = "" ∨ coll = ""
  · simp [h0]
  · rw [if_neg h0]
    exact addItemToCollectionAux_ids _ itemId

/-- `addItem` with a fresh id appends exactly one row with that id. -/
theorem addItem_fresh_ids (st : Store) (it : Item)
    (h : ∀ r ∈ st.items, r.id ≠ it.id) :
    (addItem st it).items.map Item.id = st.items.map Item.id ++ [it.id] := by
  have hany : (st.items.any (fun r => r.id == it.id)) = false := by
    rw [List.any_eq_false]
    intro r hr
    simpa using h r hr
  unfold addItem
  rw [hany]
  simp only [Bool.false_eq_true, if_false]
  by_cases hc : it.collection ≠ ""
  · rw [if_pos hc, addItemToCollection_ids]
    simp
  · rw [if_neg hc]
    simp

/-- The reported import count is the number of parsed records,
unconditionally — rejected store writes are counted all the same. -/
theorem importFold_count (collection : String) :
    ∀ (items : List Item) (ids : List String) (st : Store),
      (importFold collection items ids st).1 = items.length := by
  intro items
  induction items with
  | nil => intro ids st; rfl
  | cons it rest ih =>
    intro ids st
    unfold importFold
    simp [ih]

/-- Store growth of the import loop: with enough fresh, pairwise-distinct
ids, every parsed record becomes a new row. -/
theorem importFold_ids (collection : String) :
    ∀ (items : List Item) (ids : List String) (st : Store),
      items.length ≤ ids.length → ids.Nodup →
      (∀ s ∈ ids, s ∉ st.items.map Item.id) →
      (importFold collection items ids st).2.items.map Item.id
        = st.items.map Item.id ++ ids.take items.length := by
  intro items
  induction items with
  | nil => intro ids st _ _ _; simp [importFold]
  | cons it rest ih =>
    intro ids st hlen hnd hfresh
    cases ids with
    | nil => simp at hlen
    | cons id0 idsR =>
      unfold importFold
      simp only
      have hfresh0 : ∀ r ∈ st.items, r.id ≠ id0 := by
        intro r hr heq
        exact hfresh id0 (List.mem_cons_self id0 idsR) (List.mem_map.mpr ⟨r, hr, heq⟩)
      have hids1 : (addItem st { it with id := id0, collection := collection }).items.map Item.id
          = st.items.map Item.id ++ [id0] := by
        simpa using addItem_fresh_ids st { it with id := id0, collection := collection }
          (by intro r hr; exact hfresh0 r hr)
      have hstep : ({ it with id := (id0 :: idsR).headD "", collection := collection } : Item)
          = { it with id := id0, collection := collection } := by simp
      rw [hstep]
      simp only [List.tail_cons]
      rw [ih idsR (addItem st { it with id := id0, collection := collection })
        (by simpa using hlen) (List.Nodup.of_cons hnd) ?_]
      · rw [hids1]
        simp [List.append_assoc]
      · intro s hs
        rw [hids1]
        intro hmem
        rcases List.mem_append.mp hmem with hold | hone
        · exact hfresh s (List.mem_cons_of_mem id0 hs) hold
        · rw [List.mem_singleton] at hone
          rw [List.nodup_cons] at hnd
          exact hnd.1 (hone ▸ hs)

/-- `importBibTeX` store-id effect with fresh distinct ids. -/
theorem importBibTeX_ids (fs : FS) (storage bibDir content : String)
    (ids : List String) (collection : String) (st : Store)
    (hlen : (parseBibTeX fs storage bibDir content).1.length ≤ ids.length)
    (hnd : ids.Nodup) (hfresh : ∀ s ∈ ids, s ∉ st.items.map Item.id) :
    (importBibTeX fs storage bibDir content ids collection st).2.1.items.map Item.id
      = st.items.map Item.id
        ++ ids.take (parseBibTeX fs storage bibDir content).1.length := by
  unfold importBibTeX
  simp only
  exact importFold_ids collection _ ids st hlen hnd hfresh

/-- C8 counterexample: with a store already holding a row whose id collides
with the generated uuid, the insert is rejected (the store is unchanged),
yet the import still reports one record imported — the rejected write is
counted. -/
theorem c8_counterexample :
    (importBibTeX ⟨[]⟩ "S" "D" "@misc(k, title = \"T\")" ["u1"] ""
        { items := [{ (default : Item) with id := "u1", title := "X" }] }).1 = 1 ∧
    (importBibTeX ⟨[]⟩ "S" "D" "@misc(k, title = \"T\")" ["u1"] ""
        { items := [{ (default : Item) with id := "u1", title := "X" }] }).2.1.items
      = [{ (default : Item) with id := "u1", title := "X" }] := by
  constructor
  · rfl
  · decide

/-- C8 amended: the import orchestrator returns the number of parsed
records, unconditionally: `Database::addItem` returns nothing and swallows
insert errors, so a rejected store write is still counted and is not
surfaced to the caller; records already written are not rolled back and the
batch is never aborted. -/
theorem c8_import_count (fs : FS) (storage bibDir content : String)
    (ids : List String) (collection : String) (st : Store) :
    (importBibTeX fs storage bibDir content ids collection st).1
      = (parseBibTeX fs storage bibDir content).1.length := by
  unfold importBibTeX
  exact importFold_count collection _ ids st

/-- C1 counterexample: importing the same `.bib` content twice into the same
store and target collection changes the record count — the second import
creates a duplicate row instead of merging. -/
theorem c1_counterexample :
    (importBibTeX
        (importBibTeX ⟨[]⟩ "S" "D"
          "@article(k1, title = \"A\", author = \"B\", doi = \"10.1/x\")" ["u1"] "C" default).2.2
        "S" "D" "@article(k1, title = \"A\", author = \"B\", doi = \"10.1/x\")" ["u2"] "C"
        (importBibTeX ⟨[]⟩ "S" "D"
          "@article(k1, title = \"A\", author = \"B\", doi = \"10.1/x\")" ["u1"] "C" default).2.1).2.1.items.length
      ≠
      (importBibTeX ⟨[]⟩ "S" "D"
        "@article(k1, title = \"A\", author = \"B\", doi = \"10.1/x\")" ["u1"] "C" default).2.1.items.length := by
  decide

/-- C1 amended: the file-import path performs no identity resolution and no
merging — every parsed record is persisted as a new row under a freshly
generated identifier (matching by DOI/ISBN/title+authors exists only in the
browser-connector save path).  Consequently, when the generated identifiers
are fresh and pairwise distinct, a second import of the same file grows the
store by the number of records parsed in each import instead of leaving the
count unchanged. -/
theorem c1_second_import_duplicates (fs : FS) (storage bibDir content : String)
    (ids1 ids2 : List String) (collection : String) (st : Store)
    (hfresh : ∀ s ∈ ids1 ++ ids2, s ∉ st.items.map Item.id)
    (hnd : (ids1 ++ ids2).Nodup)
    (hlen1 : (parseBibTeX fs storage bibDir content).1.length ≤ ids1.length)
    (hlen2 : (parseBibTeX (importBibTeX fs storage bibDir content ids1 collection st).2.2
        storage bibDir content).1.length ≤ ids2.length) :
    (importBibTeX (importBibTeX fs storage bibDir content ids1 collection st).2.2
        storage bibDir content ids2 collection
        (importBibTeX fs storage bibDir content ids1 collection st).2.1).2.1.items.length
      = st.items.length
        + (parseBibTeX fs storage bibDir content).1.length
        + (parseBibTeX (importBibTeX fs storage bibDir content ids1 collection st).2.2
            storage bibDir content).1.length := by
  have hnd1 : ids1.Nodup := (List.nodup_append.mp hnd).1
  have hnd2 : ids2.Nodup := (List.nodup_append.mp hnd).2.1
  have hdisj := (List.nodup_append.mp hnd).2.2
  have hfresh1 : ∀ s ∈ ids1, s ∉ st.items.map Item.id := fun s hs =>
    hfresh s (List.mem_append.mpr (Or.inl hs))
  have hfresh2 : ∀ s ∈ ids2, s ∉ st.items.map Item.id := fun s hs =>
    hfresh s (List.mem_append.mpr (Or.inr hs))
  have hids1 := importBibTeX_ids fs storage bibDir content ids1 collection st hlen1 hnd1 hfresh1
  have hfresh2' : ∀ s ∈ ids2,
      s ∉ (importBibTeX fs storage bibDir content ids1 collection st).2.1.items.map Item.id := by
    intro s hs
    rw [hids1]
    intro hmem
    rcases List.mem_append.mp hmem with hold | htake
    · exact hfresh2 s hs hold
    · exact hdisj (List.take_subset _ _ htake) hs
  have hids2 := importBibTeX_ids (importBibTeX fs storage bibDir content ids1 collection st).2.2
    storage bibDir content ids2 collection
    (importBibTeX fs storage bibDir content ids1 collection st).2.1 hlen2 hnd2 hfresh2'
  have hl1 : (importBibTeX fs storage bibDir content ids1 collection st).2.1.items.length
      = st.items.length + (parseBibTeX fs storage bibDir content).1.length := by
    have := congrArg List.length hids1
    simpa [List.length_take, Nat.min_eq_left hlen1] using this
  have hl2 := congrArg List.length hids2
  simp only [List.length_map, List.length_append, List.length_take] at hl2
  rw [hl2, hl1, Nat.min_eq_left hlen2]

/-- Witness for C1 (amended) at a concrete input: importing a one-entry
`.bib` twice with fresh distinct uuids yields two rows. -/
theorem c1_second_import_duplicates_witness :
    (importBibTeX
        (importBibTeX ⟨[]⟩ "S" "D"
          "@article(k1, title = \"A\", author = \"B\", doi = \"10.1/x\")" ["u1"] "C" default).2.2
        "S" "D" "@article(k1, title = \"A\", author = \"B\", doi = \"10.1/x\")" ["u2"] "C"
        (importBibTeX ⟨[]⟩ "S" "D"
          "@article(k1, title = \"A\", author = \"B\", doi = \"10.1/x\")" ["u1"] "C" default).2.1).2.1.items.length
      = (default : Store).items.length
        + (parseBibTeX ⟨[]⟩ "S" "D"
            "@article(k1, title = \"A\", author = \"B\", doi = \"10.1/x\")").1.length
        + (parseBibTeX (importBibTeX ⟨[]⟩ "S" "D"
              "@article(k1, title = \"A\", author = \"B\", doi = \"10.1/x\")" ["u1"] "C" default).2.2
            "S" "D" "@article(k1, title = \"A\", author = \"B\", doi = \"10.1/x\")").1.length :=
  c1_second_import_duplicates ⟨[]⟩ "S" "D"
    "@article(k1, title = \"A\", author = \"B\", doi = \"10.1/x\")" ["u1"] ["u2"] "C" default
    (by decide) (by decide) (by decide) (by decide)

/-! ### Lemmas about the extras merge -/

/-- Unfolding one step of the extras merge fold. -/
theorem jsonMergeInto_cons (old : List (String × String)) (kv : String × String)
    (rest : List (String × String)) :
    jsonMergeInto old (kv :: rest) = jsonMergeInto (jsonMergeStep old kv) rest := by
  unfold jsonMergeInto
  rw [List.foldl_cons]

/-- `jsonLookup` on an empty map. -/
theorem jsonLookup_nil (k : String) : jsonLookup [] k = none := rfl

/-- `jsonLookup` unfolded one pair at a time. -/
theorem jsonLookup_cons (pr : String × String) (rest : List (String × String))
    (k : String) :
    jsonLookup (pr :: rest) k = if pr.1 = k then some pr.2 else jsonLookup rest k := by
  by_cases h : pr.1 = k
  · simp [jsonLookup, List.find?_cons, h]
  · simp [jsonLookup, List.find?_cons, h]

/-- Looking up the inserted key finds the inserted value (map branch). -/
theorem jsonLookup_map_insertFun (m : List (String × String)) (k v : String)
    (hany : (m.any (fun pr => pr.1 == k)) = true) :
    jsonLookup (m.map (fun pr => if pr.1 == k then (k, v) else pr)) k = some v := by
  induction m with
  | nil => simp at hany
  | cons pr rest ih =>
    rw [List.map_cons]
    by_cases hp : pr.1 = k
    · have hhead : (if pr.1 == k then (k, v) else pr) = (k, v) := by simp [hp]
      rw [hhead, jsonLookup_cons, if_pos rfl]
    · have hhead : (if pr.1 == k then (k, v) else pr) = pr := by simp [hp]
      rw [hhead, jsonLookup_cons, if_neg hp]
      have h2 : (rest.any (fun pr => pr.1 == k)) = true := by
        rcases List.any_eq_true.mp hany with ⟨x, hx, hxk⟩
        rcases List.mem_cons.mp hx with rfl | hx'
        · exact absurd (by simpa using hxk) hp
        · exact List.any_eq_true.mpr ⟨x, hx', hxk⟩
      exact ih h2

/-- Looking up the inserted key finds the inserted value (append branch). -/
theorem jsonLookup_append_single (m : List (String × String)) (k v : String)
    (hany : (m.any (fun pr => pr.1 == k)) = false) :
    jsonLookup (m ++ [(k, v)]) k = some v := by
  induction m with
  | nil => simp [jsonLookup_cons]
  | cons pr rest ih =>
    rw [List.any_cons, Bool.or_eq_false_iff] at hany
    rw [List.cons_append, jsonLookup_cons,
      if_neg (by simpa using hany.1)]
    exact ih hany.2

/-- Looking up the inserted key finds the inserted value. -/
theorem jsonLookup_insert_self (m : List (String × String)) (k v : String) :
    jsonLookup (jsonInsert m k v) k = some v := by
  unfold jsonInsert
  by_cases hany : (m.any (fun pr => pr.1 == k)) = true
  · rw [if_pos hany]
    exact jsonLookup_map_insertFun m k v hany
  · rw [if_neg hany]
    exact jsonLookup_append_single m k v (by simpa only [Bool.not_eq_true] using hany)

/-- Inserting at one key does not change the lookup of another key. -/
theorem jsonLookup_insert_other (m : List (String × String)) (k v k' : String)
    (hk : k' ≠ k) :
    jsonLookup (jsonInsert m k v) k' = jsonLookup m k' := by
  unfold jsonInsert
  by_cases hany : (m.any (fun pr => pr.1 == k)) = true
  · rw [if_pos hany]
    clear hany
    induction m with
    | nil => rfl
    | cons pr rest ih =>
      rw [List.map_cons]
      by_cases hp : pr.1 = k
      · have hhead : (if pr.1 == k then (k, v) else pr) = (k, v) := by simp [hp]
        rw [hhead, jsonLookup_cons, jsonLookup_cons,
          if_neg (fun h : k = k' => hk h.symm),
          if_neg (fun h : pr.1 = k' => hk (hp ▸ h).symm)]
        exact ih
      · have hhead : (if pr.1 == k then (k, v) else pr) = pr := by simp [hp]
        rw [hhead, jsonLookup_cons, jsonLookup_cons]
        by_cases h3 : pr.1 = k'
        · rw [if_pos h3, if_pos h3]
        · rw [if_neg h3, if_neg h3]
          exact ih
  · rw [if_neg hany]
    clear hany
    induction m with
    | nil =>
      rw [List.nil_append, jsonLookup_cons,
        if_neg (fun h : k = k' => hk h.symm)]
    | cons pr rest ih =>
      rw [List.cons_append, jsonLookup_cons, jsonLookup_cons]
      by_cases h3 : pr.1 = k'
      · rw [if_pos h3, if_pos h3]
      · rw [if_neg h3, if_neg h3]
        exact ih

/-- A successful lookup means the key occurs. -/
theorem jsonLookup_some_any (m : List (String × String)) (k v : String)
    (h : jsonLookup m k = some v) : (m.any (fun pr => pr.1 == k)) = true := by
  induction m with
  | nil => simp [jsonLookup] at h
  | cons pr rest ih =>
    by_cases hp : pr.1 = k
    · simp [hp]
    · rw [jsonLookup_cons, if_neg hp] at h
      rw [List.any_cons]
      simp [ih h]

/-- Re-inserting the value a key already holds is the identity (under the
`QJsonObject` no-duplicate-keys invariant). -/
theorem jsonInsert_self_eq (m : List (String × String)) (k v : String)
    (hl : jsonLookup m k = some v) (hnd : nodupKeys m) :
    jsonInsert m k v = m := by
  induction m with
  | nil => simp [jsonLookup] at hl
  | cons pr rest ih =>
    unfold nodupKeys at hnd
    rw [List.map_cons, List.nodup_cons] at hnd
    obtain ⟨hnotin, hndr⟩ := hnd
    by_cases hp : pr.1 = k
    · have hv : v = pr.2 := by
        rw [jsonLookup_cons, if_pos hp] at hl
        exact (Option.some_inj.mp hl).symm
      have hany : ((pr :: rest).any (fun q => q.1 == k)) = true := by simp [hp]
      unfold jsonInsert
      rw [if_pos hany, List.map_cons]
      have hhead : (if pr.1 == k then (k, v) else pr) = pr := by
        have : (k, v) = pr := by
          cases pr with
          | mk a b =>
            simp only at hp hv
            rw [hp, hv]
        simp [hp, this]
      rw [hhead]
      have htail : rest.map (fun q => if q.1 == k then (k, v) else q) = rest := by
        have hid : ∀ q ∈ rest, (if q.1 == k then (k, v) else q) = q := by
          intro q hq
          have hqk : q.1 ≠ k := by
            intro hqk
            exact hnotin (by rw [hp]; exact hqk ▸ List.mem_map.mpr ⟨q, hq, rfl⟩)
          simp [hqk]
        calc rest.map (fun q => if q.1 == k then (k, v) else q)
            = rest.map id := List.map_congr_left hid
          _ = rest := List.map_id rest
      rw [htail]
    · have hl' : jsonLookup rest k = some v := by
        rw [jsonLookup_cons, if_neg hp] at hl
        exact hl
      have hanyr : (rest.any (fun q => q.1 == k)) = true := jsonLookup_some_any rest k v hl'
      have hany : ((pr :: rest).any (fun q => q.1 == k)) = true := by
        rw [List.any_cons, hanyr]
        simp
      unfold jsonInsert
      rw [if_pos hany, List.map_cons]
      have hhead : (if pr.1 == k then (k, v) else pr) = pr := by simp [hp]
      rw [hhead]
      have := ih hl' hndr
      unfold jsonInsert at this
      rw [if_pos hanyr] at this
      rw [this]

/-- Insertion preserves the no-duplicate-keys invariant. -/
theorem nodupKeys_insert (m : List (String × String)) (k v : String)
    (hnd : nodupKeys m) : nodupKeys (jsonInsert m k v) := by
  unfold jsonInsert
  by_cases hany : (m.any (fun pr => pr.1 == k)) = true
  · rw [if_pos hany]
    unfold nodupKeys at hnd ⊢
    have hkeys : (m.map (fun pr => if pr.1 == k then (k, v) else pr)).map (fun pr => pr.1)
        = m.map (fun pr => pr.1) := by
      rw [List.map_map]
      apply List.map_congr_left
      intro pr _
      by_cases hp : pr.1 = k <;> simp [hp]
    rw [hkeys]
    exact hnd
  · rw [if_neg hany]
    unfold nodupKeys at hnd ⊢
    rw [List.map_append]
    have hk : k ∉ m.map (fun pr => pr.1) := by
      intro hmem
      rcases List.mem_map.mp hmem with ⟨pr, hpr, hprk⟩
      rw [Bool.not_eq_true, List.any_eq_false] at hany
      exact absurd (by simp [hprk]) (hany pr hpr)
    refine List.Nodup.append hnd (List.nodup_singleton k) ?_
    intro a ha hb
    simp only [List.map_cons, List.map_nil, List.mem_singleton] at hb
    exact hk (hb ▸ ha)

/-- One merge step preserves the no-duplicate-keys invariant. -/
theorem nodupKeys_mergeStep (acc : List (String × String)) (kv : String × String)
    (hnd : nodupKeys acc) : nodupKeys (jsonMergeStep acc kv) := by
  unfold jsonMergeStep
  cases hl : jsonLookup acc kv.1 with
  | none => exact nodupKeys_insert acc kv.1 kv.2 hnd
  | some v =>
    show nodupKeys (if trimS v = "" then jsonInsert acc kv.1 kv.2 else acc)
    by_cases ht : trimS v = ""
    · rw [if_pos ht]
      exact nodupKeys_insert acc kv.1 kv.2 hnd
    · rw [if_neg ht]
      exact hnd

/-- The merge fold preserves the no-duplicate-keys invariant. -/
theorem nodupKeys_mergeInto (incoming : List (String × String)) :
    ∀ old, nodupKeys old → nodupKeys (jsonMergeInto old incoming) := by
  induction incoming with
  | nil => intro old h; exact h
  | cons kv rest ih =>
    intro old h
    rw [jsonMergeInto_cons]
    exact ih (jsonMergeStep old kv) (nodupKeys_mergeStep old kv h)

/-- One merge step does not change the lookup of an unrelated key. -/
theorem jsonMergeStep_lookup_other (acc : List (String × String)) (kv : String × String)
    (k : String) (hk : k ≠ kv.1) :
    jsonLookup (jsonMergeStep acc kv) k = jsonLookup acc k := by
  unfold jsonMergeStep
  cases hl : jsonLookup acc kv.1 with
  | none => exact jsonLookup_insert_other acc kv.1 kv.2 k hk
  | some v =>
    show jsonLookup (if trimS v = "" then jsonInsert acc kv.1 kv.2 else acc) k = jsonLookup acc k
    by_cases ht : trimS v = ""
    · rw [if_pos ht]
      exact jsonLookup_insert_other acc kv.1 kv.2 k hk
    · rw [if_neg ht]

/-- The merge fold does not change the lookup of a key none of the incoming
pairs carries. -/
theorem jsonMergeInto_lookup_other (incoming : List (String × String)) :
    ∀ (m : List (String × String)) (k : String), (∀ kv ∈ incoming, k ≠ kv.1) →
      jsonLookup (jsonMergeInto m incoming) k = jsonLookup m k := by
  induction incoming with
  | nil => intro m k _; rfl
  | cons kv rest ih =>
    intro m k hk
    rw [jsonMergeInto_cons]
    rw [ih (jsonMergeStep m kv) k (fun kv' h => hk kv' (List.mem_cons_of_mem kv h))]
    exact jsonMergeStep_lookup_other m kv k (hk kv (List.mem_cons_self kv rest))

/-- After one merge step, the stepped key holds a value that is either
non-blank or exactly the incoming value. -/
theorem jsonMergeStep_post (acc : List (String × String)) (kv : String × String) :
    ∃ w, jsonLookup (jsonMergeStep acc kv) kv.1 = some w ∧ (trimS w ≠ "" ∨ w = kv.2) := by
  unfold jsonMergeStep
  cases hl : jsonLookup acc kv.1 with
  | none => exact ⟨kv.2, jsonLookup_insert_self acc kv.1 kv.2, Or.inr rfl⟩
  | some v =>
    by_cases ht : trimS v = ""
    · refine ⟨kv.2, ?_, Or.inr rfl⟩
      show jsonLookup (if trimS v = "" then jsonInsert acc kv.1 kv.2 else acc) kv.1 = some kv.2
      rw [if_pos ht]
      exact jsonLookup_insert_self acc kv.1 kv.2
    · refine ⟨v, ?_, Or.inl ht⟩
      show jsonLookup (if trimS v = "" then jsonInsert acc kv.1 kv.2 else acc) kv.1 = some v
      rw [if_neg ht]
      exact hl

/-- After the whole merge fold, every incoming key holds a value that is
either non-blank or exactly that incoming value. -/
theorem jsonMergeInto_post (incoming : List (String × String)) :
    nodupKeys incoming → ∀ old, ∀ kv ∈ incoming,
      ∃ w, jsonLookup (jsonMergeInto old incoming) kv.1 = some w ∧
        (trimS w ≠ "" ∨ w = kv.2) := by
  induction incoming with
  | nil => intro _ old kv h; cases h
  | cons kv0 rest ih =>
    intro hnd old kv hm
    unfold nodupKeys at hnd
    rw [List.map_cons, List.nodup_cons] at hnd
    rw [jsonMergeInto_cons]
    rcases List.mem_cons.mp hm with rfl | hr
    · obtain ⟨w, hw, hcond⟩ := jsonMergeStep_post old kv
      refine ⟨w, ?_, hcond⟩
      rw [jsonMergeInto_lookup_other rest (jsonMergeStep old kv) kv.1 ?_]
      · exact hw
      · intro kv' hkv' heq
        exact hnd.1 (heq ▸ List.mem_map.mpr ⟨kv', hkv', rfl⟩)
    · exact ih hnd.2 (jsonMergeStep old kv0) kv hr

/-- If the wanted post-state already holds for an incoming key, the merge
step for it is a no-op. -/
theorem jsonMergeStep_noop (m : List (String × String)) (kv : String × String)
    (h : ∃ w, jsonLookup m kv.1 = some w ∧ (trimS w ≠ "" ∨ w = kv.2))
    (hnd : nodupKeys m) : jsonMergeStep m kv = m := by
  obtain ⟨w, hw, hcond⟩ := h
  unfold jsonMergeStep
  rw [hw]
  show (if trimS w = "" then jsonInsert m kv.1 kv.2 else m) = m
  by_cases ht : trimS w = ""
  · rw [if_pos ht]
    have hv : w = kv.2 := by
      rcases hcond with hne | he
      · exact absurd ht hne
      · exact he
    rw [← hv]
    exact jsonInsert_self_eq m kv.1 w hw hnd
  · rw [if_neg ht]

/-- If the wanted post-state already holds for every incoming key, the whole
merge fold is a no-op. -/
theorem jsonMergeInto_noop (incoming : List (String × String)) :
    ∀ (m : List (String × String)),
      (∀ kv ∈ incoming, ∃ w, jsonLookup m kv.1 = some w ∧ (trimS w ≠ "" ∨ w = kv.2)) →
      nodupKeys m → jsonMergeInto m incoming = m := by
  induction incoming with
  | nil => intro m _ _; rfl
  | cons kv0 rest ih =>
    intro m hm hnd
    rw [jsonMergeInto_cons]
    rw [jsonMergeStep_noop m kv0 (hm kv0 (List.mem_cons_self kv0 rest)) hnd]
    exact ih m (fun kv h => hm kv (List.mem_cons_of_mem kv0 h)) hnd

/-- The extras merge is idempotent under the `QJsonObject`
no-duplicate-keys invariant. -/
theorem jsonMergeInto_idem (old incoming : List (String × String))
    (hold : nodupKeys old) (hinc : nodupKeys incoming) :
    jsonMergeInto (jsonMergeInto old incoming) incoming = jsonMergeInto old incoming :=
  jsonMergeInto_noop incoming (jsonMergeInto old incoming)
    (jsonMergeInto_post incoming hinc old)
    (nodupKeys_mergeInto incoming old hold)

/-! ### The merge engine is idempotent everywhere except the attachment
list -/

/-- A `;`-joined attachment list is never the empty string. -/
theorem append_sep_ne (a b : String) : a ++ ";" ++ b ≠ "" := by
  intro h
  have hd := congrArg String.data h
  simp [String.data_append] at hd

/-- Merge-if-empty is idempotent on a single scalar field. -/
theorem if_empty_twice (d s : String) :
    (if (if d = "" then s else d) = "" then s else (if d = "" then s else d))
      = (if d = "" then s else d) := by
  by_cases hd : d = "" <;> by_cases hs : s = "" <;> simp [hd, hs]

/-- `mergeItem` in closed form: merge-if-empty on its thirteen scalar
fields, append on `pdf_path`, the extras merge on `extra`, everything else
untouched. -/
theorem mergeItem_eq (e i : Item) : mergeItem e i = { e with
    title := if e.title = "" then i.title else e.title,
    authors := if e.authors = "" then i.authors else e.authors,
    year := if e.year = "" then i.year else e.year,
    type := if e.type = "" then i.type else e.type,
    doi := if e.doi = "" then i.doi else e.doi,
    isbn := if e.isbn = "" then i.isbn else e.isbn,
    publisher := if e.publisher = "" then i.publisher else e.publisher,
    pages := if e.pages = "" then i.pages else e.pages,
    volume := if e.volume = "" then i.volume else e.volume,
    number := if e.number = "" then i.number else e.number,
    journal := if e.journal = "" then i.journal else e.journal,
    url := if e.url = "" then i.url else e.url,
    abstract := if e.abstract = "" then i.abstract else e.abstract,
    pdf_path := if i.pdf_path = "" then e.pdf_path
      else if e.pdf_path = "" then i.pdf_path else e.pdf_path ++ ";" ++ i.pdf_path,
    extra := jsonMergeInto e.extra i.extra } := by
  unfold mergeItem
  by_cases hi : i.pdf_path = "" <;> by_cases he : e.pdf_path = "" <;>
    simp [hi, he, mergeIfEmpty_eq]

/-- Merging the same incoming record a second time changes nothing except
the attachment list, which is appended to again. -/
theorem mergeItem_second (e i : Item) (he : nodupKeys e.extra) (hi : nodupKeys i.extra) :
    mergeItem (mergeItem e i) i =
      { mergeItem e i with pdf_path := if i.pdf_path = "" then (mergeItem e i).pdf_path
          else (mergeItem e i).pdf_path ++ ";" ++ i.pdf_path } := by
  have hidem := jsonMergeInto_idem e.extra i.extra he hi
  rw [mergeItem_eq (mergeItem e i) i]
  rw [mergeItem_eq e i]
  by_cases hip : i.pdf_path = "" <;> by_cases hep : e.pdf_path = "" <;>
    simp [hip, hep, if_empty_twice, hidem, append_sep_ne]

/-- The primary-collection reset does not touch the join table. -/
theorem addItemToCollectionAux_pairs (s : Store) (itemId : String) :
    (addItemToCollectionAux s itemId).itemCollections = s.itemCollections := by
  unfold addItemToCollectionAux
  cases hg : getItemCollections s itemId with
  | nil => rfl
  | cons c0 tl => rfl

/-- The primary-collection reset does not touch the collections table. -/
theorem addItemToCollectionAux_cols (s : Store) (itemId : String) :
    (addItemToCollectionAux s itemId).collections = s.collections := by
  unfold addItemToCollectionAux
  cases hg : getItemCollections s itemId with
  | nil => rfl
  | cons c0 tl => rfl

/-- Reset with no memberships: no-op. -/
theorem addItemToCollectionAux_of_nil (s : Store) (itemId : String)
    (h : getItemCollections s itemId = []) :
    addItemToCollectionAux s itemId = s := by
  unfold addItemToCollectionAux
  rw [h]

/-- Reset with memberships: the primary column becomes the first sorted
membership. -/
theorem addItemToCollectionAux_of_cons (s : Store) (itemId c0 : String) (tl : List String)
    (h : getItemCollections s itemId = c0 :: tl) :
    addItemToCollectionAux s itemId
      = { s with items := s.items.map (fun r =>
          if r.id == itemId then { r with collection := c0 } else r) } := by
  unfold addItemToCollectionAux
  rw [h]

/-- The membership query ignores the item rows. -/
theorem getItemCollections_items_irrel (s : Store) (items' : List Item) (itemId : String) :
    getItemCollections { s with items := items' } itemId = getItemCollections s itemId := rfl

/-- The primary-collection reset is idempotent. -/
theorem addItemToCollectionAux_idem (s : Store) (itemId : String) :
    addItemToCollectionAux (addItemToCollectionAux s itemId) itemId
      = addItemToCollectionAux s itemId := by
  cases hgs : getItemCollections s itemId with
  | nil =>
    rw [addItemToCollectionAux_of_nil s itemId hgs, addItemToCollectionAux_of_nil s itemId hgs]
  | cons c0 tl =>
    rw [addItemToCollectionAux_of_cons s itemId c0 tl hgs]
    rw [addItemToCollectionAux_of_cons _ itemId c0 tl
      (by rw [getItemCollections_items_irrel, hgs])]
    simp only [List.map_map]
    congr 1
    apply List.map_congr_left
    intro r _
    by_cases hr : r.id = itemId <;> simp [hr]

/-- Adding an item to the same collection twice equals adding it once. -/
theorem addItemToCollection_idem (st : Store) (itemId coll : String) :
    addItemToCollection (addItemToCollection st itemId coll) itemId coll
      = addItemToCollection st itemId coll := by
  by_cases h0 : itemId = "" ∨ coll = ""
  · unfold addItemToCollection
    simp [h0]
  · set A := addItemToCollection st itemId coll with hA
    have hpairs : A.itemCollections
        = (if st.itemCollections.contains (itemId, coll) then st.itemCollections
           else st.itemCollections ++ [(itemId, coll)]) := by
      rw [hA]
      unfold addItemToCollection
      rw [if_neg h0]
      exact addItemToCollectionAux_pairs _ itemId
    have hcols : A.collections
        = (if st.collections.contains coll then st.collections
           else st.collections ++ [coll]) := by
      rw [hA]
      unfold addItemToCollection
      rw [if_neg h0]
      exact addItemToCollectionAux_cols _ itemId
    have hpc : A.itemCollections.contains (itemId, coll) = true := by
      rw [hpairs]
      by_cases hc : st.itemCollections.contains (itemId, coll) = true
      · rw [if_pos hc]; exact hc
      · rw [if_neg hc]; simp
    have hcc : A.collections.contains coll = true := by
      rw [hcols]
      by_cases hc : st.collections.contains coll = true
      · rw [if_pos hc]; exact hc
      · rw [if_neg hc]; simp
    conv_lhs => unfold addItemToCollection
    rw [if_neg h0]
    simp only [hpc, hcc, eq_self_iff_true, if_true]
    show addItemToCollectionAux A itemId = A
    rw [hA]
    unfold addItemToCollection
    rw [if_neg h0]
    exact addItemToCollectionAux_idem _ itemId

/-- C2 counterexample: the merge is not idempotent — merging the same
incoming record (carrying attachment path `a`) twice appends the path a
second time, so `merge(merge(e,i),i) ≠ merge(e,i)`. -/
theorem c2_counterexample :
    mergeItem (mergeItem (default : Item) { (default : Item) with pdf_path := "a" })
        { (default : Item) with pdf_path := "a" }
      ≠ mergeItem (default : Item) { (default : Item) with pdf_path := "a" } := by
  decide

/-- C2 amended: merging the same incoming record twice equals merging it
once on every canonical scalar field and on the extra-fields map (under the
`QJsonObject` distinct-keys invariant), and adding the record to the target
collection twice equals adding it once; only the attachment-path list is not
idempotent — the second merge appends the incoming `pdf_path` again. -/
theorem c2_merge_idempotence (e i : Item) (st : Store) (itemId coll : String)
    (he : nodupKeys e.extra) (hi : nodupKeys i.extra) :
    mergeItem (mergeItem e i) i =
      { mergeItem e i with pdf_path := if i.pdf_path = "" then (mergeItem e i).pdf_path
          else (mergeItem e i).pdf_path ++ ";" ++ i.pdf_path } ∧
    addItemToCollection (addItemToCollection st itemId coll) itemId coll
      = addItemToCollection st itemId coll :=
  ⟨mergeItem_second e i he hi, addItemToCollection_idem st itemId coll⟩

/-- Witness for C2 (amended) at a concrete input. -/
theorem c2_merge_idempotence_witness :
    mergeItem (mergeItem (default : Item) { (default : Item) with pdf_path := "a" })
        { (default : Item) with pdf_path := "a" }
      = { mergeItem (default : Item) { (default : Item) with pdf_path := "a" } with
          pdf_path := if ({ (default : Item) with pdf_path := "a" } : Item).pdf_path = ""
            then (mergeItem (default : Item) { (default : Item) with pdf_path := "a" }).pdf_path
            else (mergeItem (default : Item)
                { (default : Item) with pdf_path := "a" }).pdf_path ++ ";"
              ++ ({ (default : Item) with pdf_path := "a" } : Item).pdf_path } ∧
    addItemToCollection (addItemToCollection (default : Store) "x" "C") "x" "C"
      = addItemToCollection (default : Store) "x" "C" :=
  c2_merge_idempotence (default : Item) { (default : Item) with pdf_path := "a" }
    (default : Store) "x" "C" (by decide) (by decide)

/-! ### The value cleaner: stage-identity and shape lemmas -/

/-- A head that fails the predicate means `dropWhile` keeps everything. -/
theorem dropWhile_eq_self_of_head (p : Char → Bool) (l : List Char)
    (h : ∀ c, l.head? = some c → p c = false) : l.dropWhile p = l := by
  cases l with
  | nil => rfl
  | cons c rest =>
    rw [List.dropWhile_cons, if_neg]
    intro hcon
    rw [h c rfl] at hcon
    cases hcon

/-- The head surviving `dropWhile` fails the predicate. -/
theorem head?_dropWhile (p : Char → Bool) (l : List Char) (c : Char)
    (h : (l.dropWhile p).head? = some c) : p c = false := by
  induction l with
  | nil => cases h
  | cons d rest ih =>
    rw [List.dropWhile_cons] at h
    by_cases hp : p d = true
    · rw [if_pos hp] at h
      exact ih h
    · rw [if_neg hp] at h
      rw [List.head?_cons] at h
      injection h with h'
      rw [← h']
      rw [Bool.not_eq_true] at hp
      exact hp

/-- `dropWhile` keeps the last element of the list when it keeps anything. -/
theorem getLast?_dropWhile (p : Char → Bool) (l : List Char)
    (h : l.dropWhile p ≠ []) : (l.dropWhile p).getLast? = l.getLast? := by
  induction l with
  | nil => simp at h
  | cons c rest ih =>
    rw [List.dropWhile_cons] at h ⊢
    by_cases hp : p c = true
    · rw [if_pos hp] at h ⊢
      have hrne : rest ≠ [] := by
        intro h0
        rw [h0] at h
        simp at h
      rw [ih h]
      cases rest with
      | nil => exact absurd rfl hrne
      | cons d tl => rw [List.getLast?_cons_cons]
    · rw [if_neg hp]

/-- Trimming an already-trimmed list is the identity. -/
theorem trimL_eq_self (l : List Char) (h : trimmedP l) : trimL l = l := by
  unfold trimL
  rw [dropWhile_eq_self_of_head isWs l h.1]
  rw [dropWhile_eq_self_of_head isWs l.reverse ?_]
  · exact List.reverse_reverse l
  · intro c hc
    rw [List.head?_reverse] at hc
    exact h.2 c hc

/-- The result of trimming is trimmed. -/
theorem trimL_trimmed (l : List Char) : trimmedP (trimL l) := by
  constructor
  · intro c hc
    unfold trimL at hc
    rw [List.head?_reverse] at hc
    have hne : (List.dropWhile isWs (List.dropWhile isWs l).reverse) ≠ [] := by
      intro h0
      rw [h0] at hc
      cases hc
    rw [getLast?_dropWhile _ _ hne, List.getLast?_reverse] at hc
    exact head?_dropWhile _ _ _ hc
  · intro c hc
    unfold trimL at hc
    rw [List.getLast?_reverse] at hc
    exact head?_dropWhile _ _ _ hc

/-- `dropWhile` only keeps elements of the list. -/
theorem mem_dropWhile (p : Char → Bool) (l : List Char) (c : Char)
    (h : c ∈ l.dropWhile p) : c ∈ l := by
  induction l with
  | nil => cases h
  | cons d rest ih =>
    rw [List.dropWhile_cons] at h
    by_cases hp : p d = true
    · rw [if_pos hp] at h
      exact List.mem_cons_of_mem d (ih h)
    · rw [if_neg hp] at h
      exact h

/-- Trimming only keeps elements of the list. -/
theorem mem_trimL (l : List Char) (c : Char) (h : c ∈ trimL l) : c ∈ l := by
  unfold trimL at h
  rw [List.mem_reverse] at h
  have h2 := mem_dropWhile _ _ _ h
  rw [List.mem_reverse] at h2
  exact mem_dropWhile _ _ _ h2

/-- The outer-delimiter strip is the identity when the list is not wrapped
in the delimiter pair. -/
theorem stripOuterLoop_id (o c : Char) (l : List Char)
    (h : ¬(2 ≤ l.length ∧ l.head? = some o ∧ l.getLast? = some c)) :
    ∀ fuel, stripOuterLoop o c fuel l = l := by
  intro fuel
  cases fuel with
  | zero => rfl
  | succ f =>
    unfold stripOuterLoop
    rw [if_neg h]

/-- Pattern replacement is the identity when the pattern does not occur. -/
theorem replacePair_id (a b t : Char) : ∀ l, noPairP a b l → replacePair a b t l = l := by
  intro l
  induction l with
  | nil => intro _; rfl
  | cons c tail ih =>
    intro h
    cases tail with
    | nil => rfl
    | cons d rest =>
      unfold noPairP at h
      rw [List.chain'_cons] at h
      unfold replacePair
      rw [if_neg h.1]
      congr 1
      exact ih h.2

/-- A list that never contains the second pattern character contains no
occurrence of the pattern. -/
theorem noPairP_of_no_second (a b : Char) : ∀ l, (∀ c ∈ l, c ≠ b) → noPairP a b l := by
  intro l
  induction l with
  | nil => intro _; exact List.chain'_nil
  | cons c tail ih =>
    intro h
    cases tail with
    | nil => exact List.chain'_singleton c
    | cons d rest =>
      unfold noPairP
      rw [List.chain'_cons]
      refine ⟨fun hcon => h d (by simp) hcon.2, ?_⟩
      exact ih (fun x hx => h x (List.mem_cons_of_mem c hx))

/-- Brace-to-space replacement is the identity on brace-free lists. -/
theorem map_braceToSpace_id (l : List Char) (h : noBraceP l) : l.map braceToSpace = l := by
  have hid : ∀ c ∈ l, braceToSpace c = id c := by
    intro c hc
    unfold braceToSpace
    rw [if_neg]
    · rfl
    · intro hcon
      rcases hcon with h1 | h2
      · exact (h c hc).1 h1
      · exact (h c hc).2 h2
  rw [List.map_congr_left hid, List.map_id]

/-- Whitespace collapsing is the identity on a list whose whitespace is
already single plain spaces (and, when the previous character was
whitespace, whose head is not whitespace). -/
theorem collapseGo_id : ∀ (l : List Char) (b : Bool), wsOnlySpace l → noAdjWs l →
    (b = true → ∀ c, l.head? = some c → isWs c = false) → collapseGo b l = l := by
  intro l
  induction l with
  | nil => intro b _ _ _; rfl
  | cons c rest ih =>
    intro b hws hadj hb
    by_cases hc : isWs c = true
    · cases b with
      | true =>
        have := hb rfl c rfl
        rw [this] at hc
        cases hc
      | false =>
        unfold collapseGo
        rw [if_pos hc, if_neg (by decide : ¬(false = true))]
        have hcsp : c = ' ' := hws c (List.mem_cons_self c rest) hc
        have hhead : ∀ d, rest.head? = some d → isWs d = false := by
          intro d hd
          unfold noAdjWs at hadj
          rw [List.chain'_cons'] at hadj
          have := hadj.1 d hd
          by_cases hdw : isWs d = true
          · exact absurd ⟨hc, hdw⟩ this
          · rw [Bool.not_eq_true] at hdw
            exact hdw
        rw [ih true (fun d hd => hws d (List.mem_cons_of_mem c hd))
          (by unfold noAdjWs at hadj ⊢; exact hadj.tail) (fun _ => hhead)]
        rw [hcsp]
    · unfold collapseGo
      rw [if_neg hc]
      congr 1
      exact ih false (fun d hd => hws d (List.mem_cons_of_mem c hd))
        (by unfold noAdjWs at hadj ⊢; exact hadj.tail)
        (by intro hcon; cases hcon)

/-- Every character emitted by the collapse is a space or a character of the
input. -/
theorem mem_collapseGo : ∀ (l : List Char) (b : Bool) (c : Char),
    c ∈ collapseGo b l → c = ' ' ∨ c ∈ l := by
  intro l
  induction l with
  | nil => intro b c h; cases h
  | cons d rest ih =>
    intro b c h
    unfold collapseGo at h
    by_cases hd : isWs d = true
    · rw [if_pos hd] at h
      cases b with
      | true =>
        rw [if_pos rfl] at h
        rcases ih true c h with h1 | h2
        · exact Or.inl h1
        · exact Or.inr (List.mem_cons_of_mem d h2)
      | false =>
        rw [if_neg (by decide : ¬(false = true))] at h
        rcases List.mem_cons.mp h with rfl | h2
        · exact Or.inl rfl
        · rcases ih true c h2 with h3 | h4
          · exact Or.inl h3
          · exact Or.inr (List.mem_cons_of_mem d h4)
    · rw [if_neg hd] at h
      rcases List.mem_cons.mp h with rfl | h2
      · exact Or.inr (List.mem_cons_self c rest)
      · rcases ih false c h2 with h3 | h4
        · exact Or.inl h3
        · exact Or.inr (List.mem_cons_of_mem d h4)

/-- Every whitespace character the collapse emits is a plain space. -/
theorem collapseGo_wsOnly : ∀ (l : List Char) (b : Bool), wsOnlySpace (collapseGo b l) := by
  intro l
  induction l with
  | nil => intro b c h; cases h
  | cons d rest ih =>
    intro b c h hcw
    unfold collapseGo at h
    by_cases hd : isWs d = true
    · rw [if_pos hd] at h
      cases b with
      | true =>
        rw [if_pos rfl] at h
        exact ih true c h hcw
      | false =>
        rw [if_neg (by decide : ¬(false = true))] at h
        rcases List.mem_cons.mp h with rfl | h2
        · rfl
        · exact ih true c h2 hcw
    · rw [if_neg hd] at h
      rcases List.mem_cons.mp h with rfl | h2
      · exact absurd hcw hd
      · exact ih false c h2 hcw

/-- The collapse in whitespace-pending state never emits a leading
whitespace character. -/
theorem collapseGo_true_head : ∀ (l : List Char) (c : Char),
    (collapseGo true l).head? = some c → isWs c = false := by
  intro l
  induction l with
  | nil => intro c h; cases h
  | cons d rest ih =>
    intro c h
    unfold collapseGo at h
    by_cases hd : isWs d = true
    · rw [if_pos hd, if_pos rfl] at h
      exact ih c h
    · rw [if_neg hd, List.head?_cons] at h
      injection h with h'
      rw [← h']
      rw [Bool.not_eq_true] at hd
      exact hd

/-- The collapse never emits two adjacent whitespace characters. -/
theorem collapseGo_noAdjWs : ∀ (l : List Char) (b : Bool), noAdjWs (collapseGo b l) := by
  intro l
  induction l with
  | nil => intro b; exact List.chain'_nil
  | cons d rest ih =>
    intro b
    unfold collapseGo
    by_cases hd : isWs d = true
    · rw [if_pos hd]
      cases b with
      | true =>
        rw [if_pos rfl]
        exact ih true
      | false =>
        rw [if_neg (by decide : ¬(false = true))]
        unfold noAdjWs
        rw [List.chain'_cons']
        refine ⟨?_, ih true⟩
        intro y hy hcon
        have := collapseGo_true_head rest y hy
        rw [this] at hcon
        cases hcon.2
    · rw [if_neg hd]
      unfold noAdjWs
      rw [List.chain'_cons']
      refine ⟨?_, ih false⟩
      intro y _ hcon
      exact absurd hcon.1 hd

/-- Adjacency predicates survive `dropWhile`. -/
theorem chain'_dropWhile {α : Type} (R : α → α → Prop) (p : α → Bool) :
    ∀ l : List α, List.Chain' R l → List.Chain' R (l.dropWhile p) := by
  intro l
  induction l with
  | nil => intro h; exact h
  | cons c rest ih =>
    intro h
    rw [List.dropWhile_cons]
    by_cases hp : p c = true
    · rw [if_pos hp]
      exact ih h.tail
    · rw [if_neg hp]
      exact h

/-- No-adjacent-whitespace is symmetric, so it survives reversal. -/
theorem noAdjWs_reverse (l : List Char) (h : noAdjWs l) : noAdjWs l.reverse := by
  unfold noAdjWs at h ⊢
  rw [List.chain'_reverse]
  exact List.Chain'.imp (fun a b hab hcon => hab ⟨hcon.2, hcon.1⟩) h

/-- No-adjacent-whitespace survives trimming. -/
theorem noAdjWs_trimL (l : List Char) (h : noAdjWs l) : noAdjWs (trimL l) := by
  unfold trimL
  apply noAdjWs_reverse
  apply chain'_dropWhile
  apply noAdjWs_reverse
  apply chain'_dropWhile
  exact h

/-- Shape of the cleaner's final stages: trimmed, brace-free, whitespace
collapsed to single plain spaces. -/
theorem cleanFinish_shape (w : List Char) :
    trimmedP (cleanFinish w) ∧ noBraceP (cleanFinish w) ∧ wsOnlySpace (cleanFinish w) ∧
      noAdjWs (cleanFinish w) := by
  unfold cleanFinish collapseWs
  refine ⟨trimL_trimmed _, ?_, ?_, ?_⟩
  · intro c hc
    have hc2 := mem_trimL _ _ hc
    rcases mem_collapseGo _ false c hc2 with rfl | hcm
    · exact ⟨by decide, by decide⟩
    · rcases List.mem_map.mp hcm with ⟨d, _, rfl⟩
      unfold braceToSpace
      by_cases hdb : d = lbrace ∨ d = rbrace
      · rw [if_pos hdb]
        exact ⟨by decide, by decide⟩
      · rw [if_neg hdb]
        exact ⟨fun h1 => hdb (Or.inl h1), fun h2 => hdb (Or.inr h2)⟩
  · intro c hc
    exact collapseGo_wsOnly _ false c (mem_trimL _ _ hc)
  · exact noAdjWs_trimL _ (collapseGo_noAdjWs _ false)

/-- Shape of every cleaned value. -/
theorem cleanCore_shape (l : List Char) :
    trimmedP (cleanCore l) ∧ noBraceP (cleanCore l) ∧ wsOnlySpace (cleanCore l) ∧
      noAdjWs (cleanCore l) := by
  unfold cleanCore
  exact cleanFinish_shape _

/-- A list with the cleaned shape whose residual conditions hold is a fixed
point of the cleaner. -/
theorem cleanCore_fix (y : List Char)
    (htr : trimmedP y) (hnb : noBraceP y) (hws : wsOnlySpace y) (hadj : noAdjWs y)
    (hcomma : y.getLast? ≠ some ',')
    (hquote : ¬(2 ≤ y.length ∧ y.head? = some '"' ∧ y.getLast? = some '"'))
    (hp1 : noPairP '\\' '%' y) (hp2 : noPairP '\\' '&' y)
    (hp3 : noPairP '\\' '_' y) (hp4 : noPairP '\\' '$' y) :
    cleanCore y = y := by
  have hbrace1 : noPairP '\\' lbrace y :=
    noPairP_of_no_second '\\' lbrace y (fun c hc => (hnb c hc).1)
  have hbrace2 : noPairP '\\' rbrace y :=
    noPairP_of_no_second '\\' rbrace y (fun c hc => (hnb c hc).2)
  have hsb : ¬(2 ≤ y.length ∧ y.head? = some lbrace ∧ y.getLast? = some rbrace) := by
    intro hcon
    obtain ⟨hlen, hhead, _⟩ := hcon
    cases y with
    | nil => cases hhead
    | cons c rest =>
      rw [List.head?_cons] at hhead
      injection hhead with h'
      exact (hnb c (List.mem_cons_self c rest)).1 h'
  simp only [cleanCore, cleanFinish, collapseWs]
  rw [trimL_eq_self y htr]
  rw [stripOuterLoop_id lbrace rbrace y hsb y.length]
  rw [stripOuterLoop_id '"' '"' y hquote y.length]
  rw [replacePair_id '\\' lbrace lbrace y hbrace1]
  rw [replacePair_id '\\' rbrace rbrace y hbrace2]
  rw [replacePair_id '\\' '%' '%' y hp1]
  rw [replacePair_id '\\' '&' '&' y hp2]
  rw [replacePair_id '\\' '_' '_' y hp3]
  rw [replacePair_id '\\' '$' '$' y hp4]
  rw [trimL_eq_self y htr]
  rw [if_neg hcomma]
  rw [map_braceToSpace_id y hnb]
  rw [collapseGo_id y false hws hadj (by intro hcon; cases hcon)]
  rw [trimL_eq_self y htr]

/-- A string whose character list has the cleaned shape and whose residual
conditions hold is a fixed point of `cleanValue`. -/
theorem cleanValue_fix (y : String)
    (htr : trimmedP y.data) (hnb : noBraceP y.data) (hws : wsOnlySpace y.data)
    (hadj : noAdjWs y.data) (hst : cleanStable y) : cleanValue y = y := by
  obtain ⟨hcomma, hquote, hp1, hp2, hp3, hp4⟩ := hst
  have h2 : cleanValue y = String.mk (cleanCore y.data) := rfl
  rw [h2]
  rw [cleanCore_fix y.data htr hnb hws hadj hcomma hquote hp1 hp2 hp3 hp4]

/-- Every value the cleaner produces has the cleaned shape. -/
theorem cleanValue_shape (x : String) :
    trimmedP (cleanValue x).data ∧ noBraceP (cleanValue x).data ∧
      wsOnlySpace (cleanValue x).data ∧ noAdjWs (cleanValue x).data := by
  have h1 : cleanValue x = String.mk (cleanCore x.data) := rfl
  have hdata : (cleanValue x).data = cleanCore x.data := by rw [h1]
  rw [hdata]
  exact cleanCore_shape x.data

/-- C7 counterexample: the cleaner is not idempotent even on brace-free
inputs — it strips only one trailing comma per application, so
`clean("a,,") = "a,"` while `clean(clean("a,,")) = "a"`. -/
theorem c7_counterexample : cleanValue (cleanValue "a,,") ≠ cleanValue "a,," := by
  decide

/-- C7 amended: the cleaner is idempotent on every input whose cleaned value
carries no residual artifact — no trailing comma, no surrounding double
quotes, no remaining escape pair `\%`, `\&`, `\_`, `\$` (brace artifacts are
always fully eliminated, so no brace condition is needed); and one layer of
doubled outer braces is stripped per iteration until none remain, so
`clean("{{Title}}") = "Title"`. -/
theorem c7_clean_idempotent :
    (∀ x : String, cleanStable (cleanValue x) →
      cleanValue (cleanValue x) = cleanValue x) ∧
    cleanValue "\x7b\x7bTitle\x7d\x7d" = "Title" := by
  constructor
  · intro x hstable
    have hsh := cleanValue_shape x
    revert hstable hsh
    generalize cleanValue x = y
    intro hstable hsh
    exact cleanValue_fix y hsh.1 hsh.2.1 hsh.2.2.1 hsh.2.2.2 hstable
  · decide

/-- Witness for C7 (amended) at the input `{{Title}}`. -/
theorem c7_clean_idempotent_witness :
    cleanValue (cleanValue "\x7b\x7bTitle\x7d\x7d") = cleanValue "\x7b\x7bTitle\x7d\x7d" :=
  c7_clean_idempotent.1 "\x7b\x7bTitle\x7d\x7d" (by decide)

end Bello

